import Mathlib

/-!
Verification development for the PGN-to-binary converter (src/main.rs).

The movetext grammar of the source is given by anchored regular expressions
over single-character classes.  Each regex is embedded as an executable
backtracking matcher over List Char that realizes the leftmost-first greedy
capture semantics of the regex crate.  Machine integers are modelled as Nat
and Int with explicit range checks where the source can abort; every source
abort site (assert, unwrap, unreachable match arm) is modelled by Option,
with none standing for the fatal abort of the whole run.  The f32 advantage
values are modelled as exact rationals; no claim depends on IEEE rounding.
Character classes are spelled as the explicit ASCII sets they denote; the
Unicode generalizations of the regex classes and of str::trim play no role
in any claim and are abstracted to their ASCII cores.
-/

namespace ChessConvert

/-! ### Character classes of the regular expressions in parse_game_text -/

/-- Class [NBRQK] of RE_MOVE and the promotion group. -/
def isPieceChar (c : Char) : Bool :=
  c = 'N' || c = 'B' || c = 'R' || c = 'Q' || c = 'K'

/-- Class [a-h] of RE_COORD group 1. -/
def isFileChar (c : Char) : Bool :=
  c = 'a' || c = 'b' || c = 'c' || c = 'd' || c = 'e' || c = 'f' || c = 'g' || c = 'h'

/-- Class [1-8] of RE_COORD group 2. -/
def isRankChar (c : Char) : Bool :=
  c = '1' || c = '2' || c = '3' || c = '4' || c = '5' || c = '6' || c = '7' || c = '8'

/-- Class [a-h1-9] used by RE_MOVE for the disambiguation and destination
    groups.  Note that it admits the digit 9, which RE_COORD does not. -/
def isBodyChar (c : Char) : Bool := isFileChar c || isRankChar c || c = '9'

/-- Class [+#] of the check group. -/
def isCheckChar (c : Char) : Bool := c = '+' || c = '#'

/-- Class [?!] of the glyph-suffix group. -/
def isNagChar (c : Char) : Bool := c = '?' || c = '!'

/-- Class of decimal digits, the ASCII core of the regex class backslash-d. -/
def isDigitChar (c : Char) : Bool :=
  c = '0' || c = '1' || c = '2' || c = '3' || c = '4' ||
  c = '5' || c = '6' || c = '7' || c = '8' || c = '9'

/-! ### Backtracking combinators for anchored matching -/

/-- Splittings generated by an optional single-character group: greedy, so the
    splitting that consumes the character comes first in backtracking order. -/
def optSplits (p : Char → Bool) (s : List Char) : List (List Char × List Char) :=
  match s with
  | [] => [([], [])]
  | c :: rest => if p c then [([c], rest), ([], c :: rest)] else [([], c :: rest)]

/-- Splittings generated by a greedy counted repetition of a single-character
    class, longest first in backtracking order. -/
def repSplits (p : Char → Bool) (n : Nat) (s : List Char) : List (List Char × List Char) :=
  (List.range (min n (s.takeWhile p).length + 1)).reverse.map fun k => (s.take k, s.drop k)

/-! ### RE_COORD -/

/-- Captures of RE_COORD, anchored on both sides: an optional file letter
    followed by an optional rank digit.  none when the component does not
    match, in which case the capture loop of the source runs zero times. -/
def reCoordCaptures (s : List Char) : Option (List Char × List Char) :=
  (optSplits isFileChar s).findSome? fun fc =>
    (optSplits isRankChar fc.2).findSome? fun rc =>
      if rc.2 = [] then some (fc.1, rc.1) else none

/-! ### RE_MOVE -/

/-- The eight capture groups of RE_MOVE for one accepted token. -/
structure StdCaps where
  piece : List Char
  disamb : List Char
  capture : List Char
  dest : List Char
  promoMark : List Char
  promoPiece : List Char
  check : List Char
  nag : List Char
deriving DecidableEq

/-- Captures of RE_MOVE, anchored: optional piece letter, 0 to 4 body
    characters of disambiguation, optional x, exactly two body characters of
    destination, optional promotion marker, optional promotion piece letter,
    optional check or mate marker, and up to two glyph characters. -/
def reMoveCaptures (s : List Char) : Option StdCaps :=
  (optSplits isPieceChar s).findSome? fun pc =>
  (repSplits isBodyChar 4 pc.2).findSome? fun dc =>
  (optSplits (fun c => c = 'x') dc.2).findSome? fun xc =>
  match xc.2 with
  | d1 :: d2 :: s4 =>
    if isBodyChar d1 && isBodyChar d2 then
      (optSplits (fun c => c = '=') s4).findSome? fun mc =>
      (optSplits isPieceChar mc.2).findSome? fun qc =>
      (optSplits isCheckChar qc.2).findSome? fun cc =>
      (repSplits isNagChar 2 cc.2).findSome? fun nc =>
      if nc.2 = [] then
        some ⟨pc.1, dc.1, xc.1, [d1, d2], mc.1, qc.1, cc.1, nc.1⟩
      else none
    else none
  | _ => none

/-! ### RE_CASTLING -/

/-- The three capture groups of RE_CASTLING. -/
structure CastleCaps where
  core : List Char
  check : List Char
  nag : List Char
deriving DecidableEq

/-- Captures of RE_CASTLING: the core group is the letter O, a dash, the
    letter O, then an optional dash and an optional further O; a check or mate
    marker and up to two glyphs may follow. -/
def reCastlingCaptures (s : List Char) : Option CastleCaps :=
  match s with
  | 'O' :: '-' :: 'O' :: t =>
    (optSplits (fun c => c = '-') t).findSome? fun hc =>
    (optSplits (fun c => c = 'O') hc.2).findSome? fun oc =>
    (optSplits isCheckChar oc.2).findSome? fun cc =>
    (repSplits isNagChar 2 cc.2).findSome? fun nc =>
    if nc.2 = [] then some ⟨'O' :: '-' :: 'O' :: (hc.1 ++ oc.1), cc.1, nc.1⟩ else none
  | _ => none

/-! ### The move encoder -/

/-- File-letter match arms of the coordinate loops.  The final arm of the
    source aborts the run. -/
def coordFileCode (s : List Char) : Option Nat :=
  if s = [] then some 0x0
  else if s = ['a'] then some 0x1
  else if s = ['b'] then some 0x2
  else if s = ['c'] then some 0x3
  else if s = ['d'] then some 0x4
  else if s = ['e'] then some 0x5
  else if s = ['f'] then some 0x6
  else if s = ['g'] then some 0x7
  else if s = ['h'] then some 0x8
  else none

/-- Rank-digit match arms of the coordinate loops. -/
def coordRankCode (s : List Char) : Option Nat :=
  if s = [] then some 0x0
  else if s = ['1'] then some 0x1
  else if s = ['2'] then some 0x2
  else if s = ['3'] then some 0x3
  else if s = ['4'] then some 0x4
  else if s = ['5'] then some 0x5
  else if s = ['6'] then some 0x6
  else if s = ['7'] then some 0x7
  else if s = ['8'] then some 0x8
  else none

/-- Piece match arms for the metadata word. -/
def pieceMeta (s : List Char) : Option Nat :=
  if s = [] then some 0x0001
  else if s = ['N'] then some 0x0002
  else if s = ['B'] then some 0x0003
  else if s = ['R'] then some 0x0004
  else if s = ['Q'] then some 0x0005
  else if s = ['K'] then some 0x0006
  else none

/-- Capture-flag match arms for the metadata word. -/
def captureMeta (s : List Char) : Option Nat :=
  if s = [] then some 0x0000
  else if s = ['x'] then some 0x0008
  else none

/-- Check-flag match arms for the metadata word. -/
def checkMeta (s : List Char) : Option Nat :=
  if s = [] then some 0x0000
  else if s = ['+'] then some 0x0010
  else if s = ['#'] then some 0x0020
  else none

/-- Glyph match arms for the metadata word.  The catch-all arm of the source
    yields the literal value 7 instead of aborting. -/
def nagMeta (s : List Char) : Nat :=
  if s = [] then 0x0000
  else if s = ['!'] then 0x0040
  else if s = ['?'] then 0x0080
  else if s = ['!', '!'] then 0x00C0
  else if s = ['?', '?'] then 0x0100
  else if s = ['!', '?'] then 0x0140
  else if s = ['?', '!'] then 0x0180
  else 7

/-- Promotion-piece match arms for the metadata word. -/
def promoMeta (s : List Char) : Option Nat :=
  if s = [] then some 0x0000
  else if s = ['N'] then some 0x0400
  else if s = ['B'] then some 0x0600
  else if s = ['R'] then some 0x0800
  else if s = ['Q'] then some 0x0A00
  else if s = ['K'] then some 0x0C00
  else none

/-- One coordinate loop of the encoder: if RE_COORD matches the component, OR
    the file code shifted by fs and the rank code shifted by rs into the
    accumulator; if it does not match, the loop body runs zero times and the
    accumulator is unchanged.  The source writes the disambiguation file code
    with no shift; here that is the shift by 0. -/
def orCoord (acc : Nat) (s : List Char) (fs rs : Nat) : Option Nat :=
  match reCoordCaptures s with
  | none => some acc
  | some fr => do
    let a ← coordFileCode fr.1
    let b ← coordRankCode fr.2
    some ((acc ||| (a <<< fs)) ||| (b <<< rs))

/-- The shared encoding block of the castling branch and the standard-move
    branch: build the square word from the disambiguation and destination
    components, then OR the metadata fields together in source order. -/
def encodeParts (disamb dest piece capt chk nag promo : List Char) : Option (Nat × Nat) := do
  let d1 ← orCoord 0 disamb 0 4
  let sq ← orCoord d1 dest 8 12
  let p ← pieceMeta piece
  let cp ← captureMeta capt
  let ck ← checkMeta chk
  let pr ← promoMeta promo
  some (sq, ((((0 ||| p) ||| cp) ||| ck) ||| nagMeta nag) ||| pr)

/-- The standard-move branch: the two hard assertions of the source, then the
    shared encoding block. -/
def stdMoveEncode (c : StdCaps) : Option (Nat × Nat) :=
  if c.disamb.length ≤ c.dest.length then
    if c.promoPiece.length = c.promoMark.length then
      encodeParts c.disamb c.dest c.piece c.capture c.check c.nag c.promoPiece
    else none
  else none

/-! ### Comment-span scanners: RE_EVAL, RE_EVAL_MATE, RE_EVAL_ADVANTAGE, RE_CLK -/

/-- Greedy digit run: maximal digit prefix and the remainder. -/
def digitSpan (s : List Char) : List Char × List Char :=
  (s.takeWhile isDigitChar, s.dropWhile isDigitChar)

/-- Match one or more digits, a dot, then greedily one or two digits, at the
    start of s; returns the matched text and the remainder. -/
def matchNumDotAt (s : List Char) : Option (List Char × List Char) :=
  match digitSpan s with
  | (ds, rest) =>
    if ds = [] then none
    else
      match rest with
      | '.' :: r2 =>
        let fs := (r2.takeWhile isDigitChar).take 2
        if fs = [] then none
        else some (ds ++ '.' :: fs, r2.drop fs.length)
      | _ => none

/-- Match the decimal-advantage alternative of RE_EVAL at the start of s: an
    optional minus sign (greedy, tried first) then digits dot digits. -/
def matchAdvAt (s : List Char) : Option (List Char × List Char) :=
  match s with
  | '-' :: t =>
    (match matchNumDotAt t with
     | some mr => some ('-' :: mr.1, mr.2)
     | none => matchNumDotAt ('-' :: t))
  | _ => matchNumDotAt s

/-- Match an optional minus sign followed by one or more digits at the start
    of s, the shape of the mate-count capture group. -/
def matchSignedDigits (s : List Char) : Option (List Char × List Char) :=
  match s with
  | '-' :: t =>
    (match digitSpan t with
     | (ds, rest) => if ds = [] then none else some ('-' :: ds, rest))
  | _ =>
    match digitSpan s with
    | (ds, rest) => if ds = [] then none else some (ds, rest)

/-- Match the mate alternative of RE_EVAL at the start of s: a hash sign then
    a signed digit run. -/
def matchMateAt (s : List Char) : Option (List Char × List Char) :=
  match s with
  | '#' :: t => (matchSignedDigits t).map fun dr => ('#' :: dr.1, dr.2)
  | _ => none

/-- Match RE_EVAL at the start of s.  The advantage alternative is written
    first in the source regex, so leftmost-first semantics tries it first. -/
def matchEvalAt (s : List Char) : Option (List Char × List Char) :=
  match matchAdvAt s with
  | some mr => some mr
  | none => matchMateAt s

/-- Leftmost non-overlapping RE_EVAL matches of a token, as found by
    captures_iter.  Fuel is the remaining length; every step consumes at
    least one character. -/
def findEvalAux : Nat → List Char → List (List Char)
  | 0, _ => []
  | _ + 1, [] => []
  | fuel + 1, c :: rest =>
    match matchEvalAt (c :: rest) with
    | some mr => mr.1 :: findEvalAux fuel mr.2
    | none => findEvalAux fuel rest

/-- All RE_EVAL matches of a token in order. -/
def evalMatches (s : List Char) : List (List Char) := findEvalAux s.length s

/-- First match of RE_EVAL_MATE inside an already-matched eval text, returning
    its capture group, the signed digit run after the hash sign. -/
def searchMate : List Char → Option (List Char)
  | [] => none
  | '#' :: t =>
    (match matchSignedDigits t with
     | some dr => some dr.1
     | none => searchMate t)
  | _ :: t => searchMate t

/-- First match of RE_EVAL_ADVANTAGE inside an already-matched eval text. -/
def searchAdv : List Char → Option (List Char)
  | [] => none
  | c :: t =>
    match matchAdvAt (c :: t) with
    | some mr => some mr.1
    | none => searchAdv t

/-- Exactly two digits, the shape of the minute and second groups of RE_CLK. -/
def exactTwoDigits (s : List Char) : Option (List Char × List Char) :=
  match s with
  | a :: b :: r => if isDigitChar a && isDigitChar b then some ([a, b], r) else none
  | _ => none

/-- Match RE_CLK at the start of s: digits, colon, two digits, colon, two
    digits; returns the three digit-group captures and the remainder. -/
def matchClkAt (s : List Char) : Option ((List Char × List Char × List Char) × List Char) :=
  match digitSpan s with
  | (hs, r1) =>
    if hs = [] then none
    else
      match r1 with
      | ':' :: r2 =>
        match exactTwoDigits r2 with
        | some mr =>
          (match mr.2 with
           | ':' :: r4 =>
             (match exactTwoDigits r4 with
              | some sr => some ((hs, mr.1, sr.1), sr.2)
              | none => none)
           | _ => none)
        | none => none
      | _ => none

/-- Leftmost non-overlapping RE_CLK matches of a token. -/
def findClkAux : Nat → List Char → List (List Char × List Char × List Char)
  | 0, _ => []
  | _ + 1, [] => []
  | fuel + 1, c :: rest =>
    match matchClkAt (c :: rest) with
    | some mr => mr.1 :: findClkAux fuel mr.2
    | none => findClkAux fuel rest

/-- All RE_CLK matches of a token in order. -/
def clkMatches (s : List Char) : List (List Char × List Char × List Char) :=
  findClkAux s.length s

/-! ### Numeric parsing -/

/-- Decimal value of a digit string. -/
def digitsToNat (ds : List Char) : Nat := ds.foldl (fun a c => a * 10 + (c.toNat - 48)) 0

/-- Rust unsigned integer parsing: an optional plus sign, one or more digits,
    value within the bound; anything else is an error. -/
def parseUnsigned (bound : Nat) (s : List Char) : Option Nat :=
  let ds := match s with | '+' :: t => t | t => t
  if ds ≠ [] ∧ ds.all isDigitChar ∧ digitsToNat ds ≤ bound then some (digitsToNat ds) else none

def parseU8 : List Char → Option Nat := parseUnsigned 255

def parseU16 : List Char → Option Nat := parseUnsigned 65535

/-- Rust i16 parsing: optional sign, digits, within the i16 range. -/
def parseI16 (s : List Char) : Option Int :=
  match s with
  | '-' :: t =>
    if t ≠ [] ∧ t.all isDigitChar ∧ digitsToNat t ≤ 32768 then
      some (-(digitsToNat t : Int))
    else none
  | '+' :: t =>
    if t ≠ [] ∧ t.all isDigitChar ∧ digitsToNat t ≤ 32767 then
      some ((digitsToNat t : Int))
    else none
  | t =>
    if t ≠ [] ∧ t.all isDigitChar ∧ digitsToNat t ≤ 32767 then
      some ((digitsToNat t : Int))
    else none

/-- Exact value of an unsigned decimal string with an optional fraction. -/
def posDecimalVal (s : List Char) : Rat :=
  match digitSpan s with
  | (ip, rest) =>
    match rest with
    | '.' :: fs => (digitsToNat ip : Rat) + (digitsToNat fs : Rat) / ((10 : Rat) ^ fs.length)
    | _ => (digitsToNat ip : Rat)

/-- Exact value of the advantage capture; models the f32 parse of the source
    as an exact rational. -/
def decimalVal (s : List Char) : Rat :=
  match s with
  | '-' :: ds => - posDecimalVal ds
  | ds => posDecimalVal ds

/-! ### Per-game parse state and the token loop -/

/-- The per-game output vectors and flags built by parse_game_text. -/
structure ParseState where
  moves : List Nat
  moveMetadata : List Nat
  clkHours : List Nat
  clkMinutes : List Nat
  clkSeconds : List Nat
  evalMateIn : List Int
  evalAdvantage : List Rat
  evalAvailable : Bool
  inComment : Bool
deriving DecidableEq

def initState : ParseState := ⟨[], [], [], [], [], [], [], false, false⟩

/-- The RE_EVAL loop of the comment branch: every match sets the availability
    flag; a mate search hit appends advantage 0 and the parsed mate count; an
    advantage search hit appends mate count 0 and the parsed advantage and
    breaks out of the loop. -/
def evalLoop (st : ParseState) : List (List Char) → Option ParseState
  | [] => some st
  | m :: rest => do
    let st1 := { st with evalAvailable := true }
    let st2 ← match searchMate m with
      | some ds => do
        let n ← parseI16 ds
        pure { st1 with evalAdvantage := st1.evalAdvantage ++ [0],
                        evalMateIn := st1.evalMateIn ++ [n] }
      | none => pure st1
    match searchAdv m with
    | some ds =>
      some { st2 with evalMateIn := st2.evalMateIn ++ [0],
                      evalAdvantage := st2.evalAdvantage ++ [decimalVal ds] }
    | none => evalLoop st2 rest

/-- The RE_CLK loop of the comment branch: each match appends its three
    parsed components. -/
def clkLoop (st : ParseState) : List (List Char × List Char × List Char) → Option ParseState
  | [] => some st
  | t :: rest => do
    let h ← parseU8 t.1
    let m ← parseU8 t.2.1
    let s ← parseU8 t.2.2
    clkLoop { st with clkHours := st.clkHours ++ [h],
                      clkMinutes := st.clkMinutes ++ [m],
                      clkSeconds := st.clkSeconds ++ [s] } rest

/-- The comment branch of the token loop. -/
def commentBranch (st : ParseState) (t : List Char) : Option ParseState := do
  let st1 ← evalLoop st (evalMatches t)
  clkLoop st1 (clkMatches t)

/-- Synthesized origin square of a castling move. -/
def castleDisamb (white : Bool) : List Char := ['e', if white then '1' else '8']

/-- Synthesized destination square of a castling move. -/
def castleDest (kingside white : Bool) : List Char :=
  [if kingside then 'g' else 'c', if white then '1' else '8']

/-- The move branch of the token loop: first the castling pattern, then the
    standard-move pattern; each appends one square word and one metadata word
    when it matches.  The castling branch infers the side to move from the
    parity of the number of moves collected so far and runs the shared
    encoding block with piece K, no capture and no promotion. -/
def moveBranch (st : ParseState) (t : List Char) : Option ParseState := do
  let st1 ← match reCastlingCaptures t with
    | none => pure st
    | some cc => do
      let white := st.moves.length % 2 == 0
      let kingside := cc.core.length == 3
      let md ← encodeParts (castleDisamb white) (castleDest kingside white)
        ['K'] [] cc.check cc.nag []
      pure { st with moves := st.moves ++ [md.1],
                     moveMetadata := st.moveMetadata ++ [md.2] }
  match reMoveCaptures t with
  | none => some st1
  | some c => do
    let md ← stdMoveEncode c
    some { st1 with moves := st1.moves ++ [md.1],
                    moveMetadata := st1.moveMetadata ++ [md.2] }

/-- The token that is exactly one opening brace. -/
def lbraceTok : List Char := [Char.ofNat 123]

/-- The token that is exactly one closing brace. -/
def rbraceTok : List Char := [Char.ofNat 125]

/-- The comment flag as it stands when the body of the token loop dispatches:
    set by the exact opening-brace token, cleared by the exact closing-brace
    token, otherwise carried over. -/
def tokenInComment (st : ParseState) (t : List Char) : Bool :=
  let c1 := if t = lbraceTok then true else st.inComment
  if t = rbraceTok then false else c1

/-- One iteration of the token loop of parse_game_text. -/
def processToken (st : ParseState) (t : List Char) : Option ParseState :=
  let ic := tokenInComment st t
  let st1 := { st with inComment := ic }
  if ic then commentBranch st1 t else moveBranch st1 t

/-- parse_game_text: split the movetext line on single spaces and run the
    token loop from the fresh per-game state. -/
def parseGameText (line : List Char) : Option ParseState :=
  (line.splitOn ' ').foldlM processToken initState

/-! ### The header field interpreter -/

/-- The typed per-game header metadata built by read_header. -/
structure GameArgs where
  year : Nat
  month : Nat
  day : Nat
  timeControlMain : Nat
  timeControlIncrement : Nat
  whiteRating : Nat
  blackRating : Nat
  whiteDiff : Int
  blackDiff : Int
  ecoCategory : Nat
  ecoSubcategory : Nat
  result : Nat
  termination : Nat
  site : Option (List Char)
  white : Option (List Char)
  black : Option (List Char)
deriving DecidableEq

/-- Default GameArgs.  The Default implementation lives in the
    build-generated flatbuffers module, which is not under src; modelled from
    the spec: every field has a defined default, numeric fields zero, text
    fields absent. -/
def defaultGameArgs : GameArgs := ⟨0, 0, 0, 0, 0, 0, 0, 0, 0, 0, 0, 0, 0, none, none, none⟩

/-- The field-dispatch match of read_header on one captured field and value
    pair.  Unknown result or termination values and failed numeric parses
    abort the run; an unrecognized field name falls through to the empty arm
    and leaves the metadata unchanged. -/
def applyHeaderField (g : GameArgs) (field value : List Char) : Option GameArgs :=
  if field = "UTCDate".data then
    match value.splitOn '.' with
    | p0 :: p1 :: p2 :: _ => do
      let y ← parseU16 p0
      let mo ← parseU8 p1
      let d ← parseU8 p2
      some { g with year := y, month := mo, day := d }
    | _ => none
  else if field = "TimeControl".data then
    if value = "-".data then some { g with timeControlMain := 0, timeControlIncrement := 0 }
    else
      match value.splitOn '+' with
      | p0 :: p1 :: _ => do
        let m ← parseU16 p0
        let i ← parseU8 p1
        some { g with timeControlMain := m, timeControlIncrement := i }
      | _ => none
  else if field = "WhiteElo".data then
    if value = "?".data then some { g with whiteRating := 0 }
    else do
      let r ← parseU16 value
      some { g with whiteRating := r }
  else if field = "BlackElo".data then
    if value = "?".data then some { g with blackRating := 0 }
    else do
      let r ← parseU16 value
      some { g with blackRating := r }
  else if field = "WhiteRatingDiff".data then do
    let d ← parseI16 value
    some { g with whiteDiff := d }
  else if field = "BlackRatingDiff".data then do
    let d ← parseI16 value
    some { g with blackDiff := d }
  else if field = "ECO".data then
    if value = "?".data then some { g with ecoCategory := 0, ecoSubcategory := 0 }
    else
      match value with
      | [] => none
      | c :: rest =>
        if c.toNat < 128 then do
          let sub ← parseU8 rest
          some { g with ecoCategory := c.toNat, ecoSubcategory := sub }
        else none
  else if field = "Result".data then
    if value = "1-0".data then some { g with result := 0 }
    else if value = "0-1".data then some { g with result := 1 }
    else if value = "1/2-1/2".data then some { g with result := 2 }
    else if value = "*".data then some { g with result := 255 }
    else none
  else if field = "Termination".data then
    if value = "Normal".data then some { g with termination := 0 }
    else if value = "Time forfeit".data then some { g with termination := 1 }
    else if value = "Abandoned".data then some { g with termination := 2 }
    else if value = "Rules infraction".data then some { g with termination := 3 }
    else if value = "Unterminated".data then some { g with termination := 4 }
    else none
  else if field = "Site".data then some { g with site := some value }
  else if field = "White".data then some { g with white := some value }
  else if field = "Black".data then some { g with black := some value }
  else some g

/-- All splittings of s, longest prefix first: the backtracking order of a
    greedy dot-star group. -/
def allSplits (s : List Char) : List (List Char × List Char) :=
  (List.range (s.length + 1)).reverse.map fun k => (s.take k, s.drop k)

/-- Match the header regex at the start of s: an opening bracket, a greedy
    dot-star field group, a space and a double quote, a greedy dot-star value
    group, then a double quote and a closing bracket. -/
def matchHeaderAt (s : List Char) : Option ((List Char × List Char) × List Char) :=
  match s with
  | '[' :: t =>
    (allSplits t).findSome? fun fr =>
      match fr.2 with
      | ' ' :: '"' :: r2 =>
        (allSplits r2).findSome? fun vr =>
          match vr.2 with
          | '"' :: ']' :: rest => some ((fr.1, vr.1), rest)
          | _ => none
      | _ => none
  | _ => none

/-- Leftmost non-overlapping matches of the header regex in a line. -/
def findHeaderAux : Nat → List Char → List (List Char × List Char)
  | 0, _ => []
  | _ + 1, [] => []
  | fuel + 1, c :: rest =>
    match matchHeaderAt (c :: rest) with
    | some mr => mr.1 :: findHeaderAux fuel mr.2
    | none => findHeaderAux fuel rest

/-- All header-regex matches of a line in order. -/
def headerMatches (s : List Char) : List (List Char × List Char) :=
  findHeaderAux s.length s

/-- read_header: dispatch every captured field and value pair of the line. -/
def readHeader (g : GameArgs) (line : List Char) : Option GameArgs :=
  (headerMatches line).foldlM (fun g1 fv => applyHeaderField g1 fv.1 fv.2) g

/-! ### The game framer -/

/-- str::trim, restricted to the ASCII whitespace that can occur here. -/
def rustTrim (s : List Char) : List Char :=
  ((s.dropWhile Char.isWhitespace).reverse.dropWhile Char.isWhitespace).reverse

/-- Result of one convert_next_game call: done models Ok false, the clean
    no-more-games return; game carries the emitted record and the remaining
    input lines and models Ok true. -/
inductive ConvOutcome where
  | done : ConvOutcome
  | game : GameArgs → ParseState → List (List Char) → ConvOutcome
deriving DecidableEq

/-- The header loop of convert_next_game: bracketed lines longer than one
    character are dispatched to read_header; any other line must be blank
    (else the run aborts) and ends the loop; end-of-input returns the clean
    no-more-games result for the whole call. -/
def headerLoop (g : GameArgs) : List (List Char) → Option (Option (GameArgs × List (List Char)))
  | [] => some none
  | l :: rest =>
    let t := rustTrim l
    if 1 < t.length ∧ t.head? = some '[' then do
      let g1 ← headerLoop (← readHeader g t) rest
      pure g1
    else if t = [] then some (some (g, rest))
    else none

/-- convert_next_game on the remaining input lines.  After the header block,
    a missing movetext line aborts (the source unwraps the read); after the
    movetext line, end-of-input yields the clean no-more-games result and
    discards the parsed game, while a non-blank line aborts; a blank line
    emits the game. -/
def convertNextGame (lines : List (List Char)) : Option ConvOutcome := do
  match ← headerLoop defaultGameArgs lines with
  | none => pure ConvOutcome.done
  | some gr =>
    match gr.2 with
    | [] => none
    | mt :: rest2 => do
      let st ← parseGameText (rustTrim mt)
      match rest2 with
      | [] => pure ConvOutcome.done
      | l :: rest3 =>
        if rustTrim l = [] then pure (ConvOutcome.game gr.1 st rest3) else none

/-! ### Spec-side field numberings (the codes named by the specification) -/

/-- Piece numbering stated by the spec: 1 pawn, 2 knight, 3 bishop, 4 rook,
    5 queen, 6 king; the empty capture denotes a pawn move. -/
def specPieceNum (s : List Char) : Nat :=
  if s = [] then 1 else if s = ['N'] then 2 else if s = ['B'] then 3
  else if s = ['R'] then 4 else if s = ['Q'] then 5 else 6

/-- Capture flag stated by the spec. -/
def specCaptureBit (s : List Char) : Nat := if s = ['x'] then 1 else 0

/-- Check state stated by the spec: 1 check, 2 mate, 0 none. -/
def specCheckNum (s : List Char) : Nat := if s = ['+'] then 1 else if s = ['#'] then 2 else 0

/-- Glyph code stated by the spec: 1 to 6 for the six glyph strings, 0 none. -/
def specNagNum (s : List Char) : Nat :=
  if s = [] then 0 else if s = ['!'] then 1 else if s = ['?'] then 2
  else if s = ['!', '!'] then 3 else if s = ['?', '?'] then 4
  else if s = ['!', '?'] then 5 else 6

/-- Promotion-piece code stated by the spec: the 1 to 6 piece numbering with
    0 for no promotion. -/
def specPromoNum (s : List Char) : Nat :=
  if s = [] then 0 else if s = ['N'] then 2 else if s = ['B'] then 3
  else if s = ['R'] then 4 else if s = ['Q'] then 5 else 6

/-- The pair of coordinate codes a square component contributes: zero when
    RE_COORD does not match the component. -/
def coordCodes (s : List Char) : Nat × Nat :=
  match reCoordCaptures s with
  | none => (0, 0)
  | some fr => ((coordFileCode fr.1).getD 0, (coordRankCode fr.2).getD 0)

/-- Value of a signed digit string, as named by the spec for mate counts. -/
def signedIntVal : List Char → Int
  | '-' :: ds => -(digitsToNat ds : Int)
  | ds => (digitsToNat ds : Int)

/-- Spec-side sample sequence extracted from the eval matches of one comment
    token: a mate match appends the parsed mate count paired with advantage 0;
    an advantage match appends mate count 0 paired with the parsed advantage
    and terminates the scan for the token. -/
def specEvalSamples : List (List Char) → List (Int × Rat)
  | [] => []
  | m :: rest =>
    match m with
    | '#' :: ds => (signedIntVal ds, 0) :: specEvalSamples rest
    | _ => [(0, decimalVal m)]

/-- Shape of a mate-count capture: an optional minus sign then digits. -/
def signedDigitsStr (ds : List Char) : Prop :=
  ∃ sign digs, (sign = [] ∨ sign = ['-']) ∧ digs ≠ [] ∧ digs.all isDigitChar = true ∧
    ds = sign ++ digs

/-- Shape of a decimal-advantage match: an optional minus sign, digits, a dot,
    then one or two digits. -/
def advStr (m : List Char) : Prop :=
  ∃ sign digs frac, (sign = [] ∨ sign = ['-']) ∧ digs ≠ [] ∧ digs.all isDigitChar = true ∧
    frac ≠ [] ∧ frac.length ≤ 2 ∧ frac.all isDigitChar = true ∧
    m = sign ++ digs ++ '.' :: frac

/-- The lockstep invariant of the output vectors. -/
def lockstep (st : ParseState) : Prop :=
  st.moves.length = st.moveMetadata.length ∧
  st.clkHours.length = st.clkMinutes.length ∧
  st.clkMinutes.length = st.clkSeconds.length ∧
  st.evalMateIn.length = st.evalAdvantage.length

/-! ### Inversion lemmas for the backtracking combinators -/

theorem optSplits_mem {p : Char → Bool} {s : List Char} {pr : List Char × List Char}
    (h : pr ∈ optSplits p s) :
    (pr.1 = [] ∧ pr.2 = s) ∨ ∃ ch, p ch = true ∧ pr.1 = [ch] ∧ s = ch :: pr.2 := by
  match s with
  | [] =>
    simp [optSplits] at h
    left
    simp [h]
  | c :: rest =>
    by_cases hc : p c
    · simp [optSplits, hc] at h
      rcases h with h | h
      · right
        exact ⟨c, hc, by simp [h], by simp [h]⟩
      · left
        simp [h]
    · simp [optSplits, hc] at h
      left
      simp [h]

theorem all_take_of_le_takeWhile {p : Char → Bool} :
    ∀ (s : List Char) (k : Nat), k ≤ (s.takeWhile p).length → (s.take k).all p = true := by
  intro s
  induction s with
  | nil => intro k _; simp
  | cons c t ih =>
    intro k hk
    cases k with
    | zero => simp
    | succ k =>
      by_cases hc : p c
      · simp only [List.takeWhile_cons, hc, if_true, List.length_cons] at hk
        simp only [List.take_succ_cons, List.all_cons, hc, Bool.true_and]
        exact ih k (by omega)
      · simp [List.takeWhile_cons, hc] at hk

theorem repSplits_mem {p : Char → Bool} {n : Nat} {s : List Char} {pr : List Char × List Char}
    (h : pr ∈ repSplits p n s) :
    pr.1.all p = true ∧ pr.1.length ≤ n ∧ s = pr.1 ++ pr.2 := by
  unfold repSplits at h
  rw [List.mem_map] at h
  obtain ⟨k, hk, hpr⟩ := h
  rw [List.mem_reverse, List.mem_range] at hk
  have hkn : k ≤ min n (s.takeWhile p).length := by omega
  subst hpr
  refine ⟨all_take_of_le_takeWhile s k (by omega), ?_, (List.take_append_drop k s).symm⟩
  calc (s.take k).length ≤ k := by simp [List.length_take]
    _ ≤ n := by omega

/-! ### Bit-packing arithmetic -/

/-- ORing a left-shifted value over a small accumulator is plain addition:
    the core identity behind the packed words. -/
theorem lor_shl_eq_add {a b k : Nat} (h : a < 2 ^ k) : a ||| (b <<< k) = a + 2 ^ k * b := by
  apply Nat.eq_of_testBit_eq
  intro j
  rw [Nat.testBit_or, Nat.testBit_shiftLeft]
  rw [show a + 2 ^ k * b = 2 ^ k * b + a by omega]
  rw [Nat.testBit_mul_pow_two_add b h j]
  by_cases hj : j < k
  · have hge : ¬ (j ≥ k) := by omega
    simp [hj, hge]
  · have hge : j ≥ k := by omega
    have ha : a.testBit j = false :=
      Nat.testBit_lt_two_pow (lt_of_lt_of_le h (Nat.pow_le_pow_right (by norm_num) hge))
    simp [hj, hge, ha]

/-! ### Characterization of the coordinate codec -/

theorem reCoord_inv {s f r : List Char} (h : reCoordCaptures s = some (f, r)) :
    (f = [] ∨ ∃ ch, isFileChar ch = true ∧ f = [ch]) ∧
    (r = [] ∨ ∃ ch, isRankChar ch = true ∧ r = [ch]) := by
  unfold reCoordCaptures at h
  obtain ⟨fc, hfc, h⟩ := List.exists_of_findSome?_eq_some h
  obtain ⟨rc, hrc, h⟩ := List.exists_of_findSome?_eq_some h
  split at h
  · rcases h with ⟨⟩
    have h1 := optSplits_mem hfc
    have h2 := optSplits_mem hrc
    constructor
    · rcases h1 with ⟨h1, _⟩ | ⟨ch, hch, h1, _⟩
      · left; exact h1
      · right; exact ⟨ch, hch, h1⟩
    · rcases h2 with ⟨h2, _⟩ | ⟨ch, hch, h2, _⟩
      · left; exact h2
      · right; exact ⟨ch, hch, h2⟩
  · exact absurd h (by simp)

theorem coordFileCode_shape {f : List Char}
    (h : f = [] ∨ ∃ ch, isFileChar ch = true ∧ f = [ch]) :
    ∃ v, coordFileCode f = some v ∧ v ≤ 8 := by
  rcases h with h | ⟨ch, hch, h⟩
  · subst h; exact ⟨0, by decide, by omega⟩
  · subst h
    simp only [isFileChar, Bool.or_eq_true, decide_eq_true_eq, or_assoc] at hch
    rcases hch with h|h|h|h|h|h|h|h <;> subst h <;> exact ⟨_, rfl, by omega⟩

theorem coordRankCode_shape {r : List Char}
    (h : r = [] ∨ ∃ ch, isRankChar ch = true ∧ r = [ch]) :
    ∃ v, coordRankCode r = some v ∧ v ≤ 8 := by
  rcases h with h | ⟨ch, hch, h⟩
  · subst h; exact ⟨0, by decide, by omega⟩
  · subst h
    simp only [isRankChar, Bool.or_eq_true, decide_eq_true_eq, or_assoc] at hch
    rcases hch with h|h|h|h|h|h|h|h <;> subst h <;> exact ⟨_, rfl, by omega⟩

theorem orCoord_eq (acc : Nat) (s : List Char) (fs rs : Nat) :
    orCoord acc s fs rs =
      some ((acc ||| ((coordCodes s).1 <<< fs)) ||| ((coordCodes s).2 <<< rs)) ∧
    (coordCodes s).1 ≤ 8 ∧ (coordCodes s).2 ≤ 8 := by
  unfold orCoord coordCodes
  cases hc : reCoordCaptures s with
  | none => simp [Nat.zero_shiftLeft]
  | some fr =>
    obtain ⟨hf, hr⟩ := reCoord_inv (f := fr.1) (r := fr.2) (by rw [hc])
    obtain ⟨v, hv, hvle⟩ := coordFileCode_shape hf
    obtain ⟨w, hw, hwle⟩ := coordRankCode_shape hr
    simp [hv, hw, hvle, hwle]

/-! ### Characterization of the metadata match arms -/

theorem pieceMeta_char {s : List Char} {p : Nat} (h : pieceMeta s = some p) :
    p = specPieceNum s ∧ 1 ≤ p ∧ p ≤ 6 := by
  unfold pieceMeta at h
  split_ifs at h with h1 h2 h3 h4 h5 h6
  · cases h; simp [specPieceNum, h1]
  · cases h; simp [specPieceNum, h1, h2]
  · cases h; simp [specPieceNum, h1, h2, h3]
  · cases h; simp [specPieceNum, h1, h2, h3, h4]
  · cases h; simp [specPieceNum, h1, h2, h3, h4, h5]
  · cases h; simp [specPieceNum, h1, h2, h3, h4, h5, h6]

theorem captureMeta_char {s : List Char} {v : Nat} (h : captureMeta s = some v) :
    v = 8 * specCaptureBit s ∧ specCaptureBit s ≤ 1 := by
  unfold captureMeta at h
  split_ifs at h with h1 h2
  · cases h; simp [specCaptureBit, h1]
  · cases h; simp [specCaptureBit, h2]

theorem checkMeta_char {s : List Char} {v : Nat} (h : checkMeta s = some v) :
    v = 16 * specCheckNum s ∧ specCheckNum s ≤ 2 := by
  unfold checkMeta at h
  split_ifs at h with h1 h2 h3
  · cases h; simp [specCheckNum, h1]
  · cases h; simp [specCheckNum, h1, h2]
  · cases h; simp [specCheckNum, h1, h2, h3]

theorem promoMeta_char {s : List Char} {v : Nat} (h : promoMeta s = some v) :
    v = 512 * specPromoNum s ∧ specPromoNum s ≤ 6 := by
  unfold promoMeta at h
  split_ifs at h with h1 h2 h3 h4 h5 h6
  · cases h; simp [specPromoNum, h1]
  · cases h; simp [specPromoNum, h1, h2]
  · cases h; simp [specPromoNum, h1, h2, h3]
  · cases h; simp [specPromoNum, h1, h2, h3, h4]
  · cases h; simp [specPromoNum, h1, h2, h3, h4, h5]
  · cases h; simp [specPromoNum, h1, h2, h3, h4, h5, h6]

/-- The seven glyph strings: all lists of at most two glyph characters. -/
theorem nag_shape {l : List Char} (h1 : l.all isNagChar = true) (h2 : l.length ≤ 2) :
    l = [] ∨ l = ['!'] ∨ l = ['?'] ∨ l = ['!', '!'] ∨ l = ['!', '?'] ∨
      l = ['?', '!'] ∨ l = ['?', '?'] := by
  match l with
  | [] => simp
  | [c] =>
    simp only [List.all_cons, List.all_nil, Bool.and_true, Bool.and_eq_true, isNagChar,
      Bool.or_eq_true, decide_eq_true_eq] at h1
    rcases h1 with h | h <;> simp [h]
  | [c1, c2] =>
    simp only [List.all_cons, List.all_nil, Bool.and_true, Bool.and_eq_true, isNagChar,
      Bool.or_eq_true, decide_eq_true_eq] at h1
    rcases h1 with ⟨h | h, h3 | h3⟩ <;> simp [h, h3]
  | _ :: _ :: _ :: _ => simp at h2

theorem nagMeta_char {s : List Char}
    (h : s = [] ∨ s = ['!'] ∨ s = ['?'] ∨ s = ['!', '!'] ∨ s = ['!', '?'] ∨
      s = ['?', '!'] ∨ s = ['?', '?']) :
    nagMeta s = 64 * specNagNum s ∧ specNagNum s ≤ 6 := by
  rcases h with h | h | h | h | h | h | h <;> subst h <;> exact ⟨by decide, by decide⟩

theorem pieceMeta_of_shape {s : List Char}
    (h : s = [] ∨ ∃ ch, isPieceChar ch = true ∧ s = [ch]) :
    ∃ v, pieceMeta s = some v := by
  rcases h with h | ⟨ch, hch, h⟩
  · subst h; exact ⟨_, rfl⟩
  · subst h
    simp only [isPieceChar, Bool.or_eq_true, decide_eq_true_eq, or_assoc] at hch
    rcases hch with h|h|h|h|h <;> subst h <;> exact ⟨_, rfl⟩

theorem promoMeta_of_shape {s : List Char}
    (h : s = [] ∨ ∃ ch, isPieceChar ch = true ∧ s = [ch]) :
    ∃ v, promoMeta s = some v := by
  rcases h with h | ⟨ch, hch, h⟩
  · subst h; exact ⟨_, rfl⟩
  · subst h
    simp only [isPieceChar, Bool.or_eq_true, decide_eq_true_eq, or_assoc] at hch
    rcases hch with h|h|h|h|h <;> subst h <;> exact ⟨_, rfl⟩

theorem checkMeta_of_shape {s : List Char}
    (h : s = [] ∨ ∃ ch, isCheckChar ch = true ∧ s = [ch]) :
    ∃ v, checkMeta s = some v := by
  rcases h with h | ⟨ch, hch, h⟩
  · subst h; exact ⟨_, rfl⟩
  · subst h
    simp only [isCheckChar, Bool.or_eq_true, decide_eq_true_eq] at hch
    rcases hch with h|h <;> subst h <;> exact ⟨_, rfl⟩

/-! ### Inversion of RE_MOVE and RE_CASTLING -/

theorem reMove_inv {s : List Char} {c : StdCaps} (h : reMoveCaptures s = some c) :
    (c.piece = [] ∨ ∃ ch, isPieceChar ch = true ∧ c.piece = [ch]) ∧
    c.disamb.all isBodyChar = true ∧ c.disamb.length ≤ 4 ∧
    (c.capture = [] ∨ c.capture = ['x']) ∧
    (∃ d1 d2, c.dest = [d1, d2] ∧ isBodyChar d1 = true ∧ isBodyChar d2 = true) ∧
    (c.promoMark = [] ∨ c.promoMark = ['=']) ∧
    (c.promoPiece = [] ∨ ∃ ch, isPieceChar ch = true ∧ c.promoPiece = [ch]) ∧
    (c.check = [] ∨ ∃ ch, isCheckChar ch = true ∧ c.check = [ch]) ∧
    c.nag.all isNagChar = true ∧ c.nag.length ≤ 2 := by
  unfold reMoveCaptures at h
  obtain ⟨pc, hpc, h⟩ := List.exists_of_findSome?_eq_some h
  obtain ⟨dc, hdc, h⟩ := List.exists_of_findSome?_eq_some h
  obtain ⟨xc, hxc, h⟩ := List.exists_of_findSome?_eq_some h
  obtain ⟨xc1, xc2⟩ := xc
  rcases xc2 with _ | ⟨d1, _ | ⟨d2, s4⟩⟩
  · exact absurd h (by simp)
  · exact absurd h (by simp)
  · dsimp only at h
    by_cases hb : isBodyChar d1 && isBodyChar d2
    case neg => rw [if_neg hb] at h; exact absurd h (by simp)
    rw [if_pos hb] at h
    obtain ⟨hb1, hb2⟩ := Bool.and_eq_true_iff.mp hb
    obtain ⟨mc, hmc, h⟩ := List.exists_of_findSome?_eq_some h
    obtain ⟨qc, hqc, h⟩ := List.exists_of_findSome?_eq_some h
    obtain ⟨cc, hcc, h⟩ := List.exists_of_findSome?_eq_some h
    obtain ⟨nc, hnc, h⟩ := List.exists_of_findSome?_eq_some h
    by_cases he : nc.2 = []
    case neg => rw [if_neg he] at h; exact absurd h (by simp)
    rw [if_pos he] at h
    rcases h with ⟨⟩
    have h1 := optSplits_mem hpc
    have h2 := repSplits_mem hdc
    have h3 := optSplits_mem hxc
    have h4 := optSplits_mem hmc
    have h5 := optSplits_mem hqc
    have h6 := optSplits_mem hcc
    have h7 := repSplits_mem hnc
    dsimp only at h3
    refine ⟨?_, h2.1, h2.2.1, ?_, ⟨d1, d2, rfl, hb1, hb2⟩, ?_, ?_, ?_, h7.1, h7.2.1⟩
    · rcases h1 with ⟨h1, _⟩ | ⟨ch, hch, h1, _⟩
      · left; exact h1
      · right; exact ⟨ch, hch, h1⟩
    · rcases h3 with ⟨h3, _⟩ | ⟨ch, hch, h3, _⟩
      · left; exact h3
      · right; simp only [decide_eq_true_eq] at hch; rw [h3, hch]
    · rcases h4 with ⟨h4, _⟩ | ⟨ch, hch, h4, _⟩
      · left; exact h4
      · right; simp only [decide_eq_true_eq] at hch; rw [h4, hch]
    · rcases h5 with ⟨h5, _⟩ | ⟨ch, hch, h5, _⟩
      · left; exact h5
      · right; exact ⟨ch, hch, h5⟩
    · rcases h6 with ⟨h6, _⟩ | ⟨ch, hch, h6, _⟩
      · left; exact h6
      · right; exact ⟨ch, hch, h6⟩

theorem reCastle_inv {s : List Char} {cc : CastleCaps} (h : reCastlingCaptures s = some cc) :
    (cc.core = "O-O".data ∨ cc.core = "O-O-".data ∨ cc.core = "O-OO".data ∨
      cc.core = "O-O-O".data) ∧
    (cc.check = [] ∨ ∃ ch, isCheckChar ch = true ∧ cc.check = [ch]) ∧
    cc.nag.all isNagChar = true ∧ cc.nag.length ≤ 2 ∧
    s = cc.core ++ cc.check ++ cc.nag := by
  unfold reCastlingCaptures at h
  split at h
  case _ t =>
    obtain ⟨hc, hhc, h⟩ := List.exists_of_findSome?_eq_some h
    obtain ⟨oc, hoc, h⟩ := List.exists_of_findSome?_eq_some h
    obtain ⟨ck, hck, h⟩ := List.exists_of_findSome?_eq_some h
    obtain ⟨nc, hnc, h⟩ := List.exists_of_findSome?_eq_some h
    by_cases he : nc.2 = []
    case neg => rw [if_neg he] at h; exact absurd h (by simp)
    rw [if_pos he] at h
    rcases h with ⟨⟩
    have h1 := optSplits_mem hhc
    have h2 := optSplits_mem hoc
    have h3 := optSplits_mem hck
    have h4 := repSplits_mem hnc
    have hccheck : (ck.1 = [] ∨ ∃ ch, isCheckChar ch = true ∧ ck.1 = [ch]) := by
      rcases h3 with ⟨h3, _⟩ | ⟨ch, hch, h3, _⟩
      · left; exact h3
      · right; exact ⟨ch, hch, h3⟩
    have hcore : hc.1 = [] ∧ hc.2 = t ∨ hc.1 = ['-'] ∧ t = '-' :: hc.2 := by
      rcases h1 with ⟨ha, hb⟩ | ⟨ch, hch, ha, hb⟩
      · left; exact ⟨ha, hb⟩
      · right; simp only [decide_eq_true_eq] at hch; subst hch; exact ⟨ha, hb⟩
    have hoc2 : oc.1 = [] ∧ oc.2 = hc.2 ∨ oc.1 = ['O'] ∧ hc.2 = 'O' :: oc.2 := by
      rcases h2 with ⟨ha, hb⟩ | ⟨ch, hch, ha, hb⟩
      · left; exact ⟨ha, hb⟩
      · right; simp only [decide_eq_true_eq] at hch; subst hch; exact ⟨ha, hb⟩
    have hck2 : ck.1 ++ ck.2 = oc.2 := by
      rcases h3 with ⟨ha, hb⟩ | ⟨ch, hch, ha, hb⟩
      · rw [ha, hb]; rfl
      · rw [ha, hb]; rfl
    have hnc2 : nc.1 = ck.2 := by
      have := h4.2.2
      rw [he, List.append_nil] at this
      exact this.symm
    constructor
    · rcases hcore with ⟨ha, _⟩ | ⟨ha, _⟩ <;> rcases hoc2 with ⟨hb, _⟩ | ⟨hb, _⟩ <;>
        simp [ha, hb]
    refine ⟨hccheck, h4.1, h4.2.1, ?_⟩
    rcases hcore with ⟨ha, hb⟩ | ⟨ha, hb⟩ <;> rcases hoc2 with ⟨hc1, hd⟩ | ⟨hc1, hd⟩ <;>
      subst hb <;> simp [ha, hc1, hnc2, hck2, hd]
  case _ => exact absurd h (by simp)

/-! ### The packed words as sums of shifted fields -/

/-- The square word: four ORed nibble fields are a plain base-16 sum. -/
theorem squareWord_eq {a b c d : Nat} (ha : a ≤ 8) (hb : b ≤ 8) (hc : c ≤ 8) (hd : d ≤ 8) :
    (((0 ||| (a <<< 0)) ||| (b <<< 4)) ||| (c <<< 8)) ||| (d <<< 12) =
      a + 16 * b + 256 * c + 4096 * d := by
  rw [Nat.shiftLeft_zero, Nat.zero_or]
  rw [lor_shl_eq_add (show a < 2 ^ 4 by norm_num; omega)]
  rw [lor_shl_eq_add (show a + 2 ^ 4 * b < 2 ^ 8 by norm_num; omega)]
  rw [lor_shl_eq_add (show a + 2 ^ 4 * b + 2 ^ 8 * c < 2 ^ 12 by norm_num; omega)]
  norm_num

/-- The metadata word: the ORed piece, capture, check, glyph and promotion
    fields are a plain sum of shifted codes. -/
theorem metaWord_eq {p cb ckn ngn prn : Nat} (hp : p ≤ 6) (hcb : cb ≤ 1) (hck : ckn ≤ 2)
    (hng : ngn ≤ 6) (hpr : prn ≤ 6) :
    ((((0 ||| p) ||| (8 * cb)) ||| (16 * ckn)) ||| (64 * ngn)) ||| (512 * prn) =
      p + 8 * cb + 16 * ckn + 64 * ngn + 512 * prn := by
  rw [Nat.zero_or]
  rw [show 8 * cb = cb <<< 3 by rw [Nat.shiftLeft_eq]; ring]
  rw [lor_shl_eq_add (show p < 2 ^ 3 by norm_num; omega)]
  rw [show 16 * ckn = ckn <<< 4 by rw [Nat.shiftLeft_eq]; ring]
  rw [lor_shl_eq_add (show p + 2 ^ 3 * cb < 2 ^ 4 by norm_num; omega)]
  rw [show 64 * ngn = ngn <<< 6 by rw [Nat.shiftLeft_eq]; ring]
  rw [lor_shl_eq_add (show p + 2 ^ 3 * cb + 2 ^ 4 * ckn < 2 ^ 6 by norm_num; omega)]
  rw [show 512 * prn = prn <<< 9 by rw [Nat.shiftLeft_eq]; ring]
  rw [lor_shl_eq_add (show p + 2 ^ 3 * cb + 2 ^ 4 * ckn + 2 ^ 6 * ngn < 2 ^ 9 by
    norm_num; omega)]
  norm_num [Nat.shiftLeft_eq]
  ring

/-- What the shared encoding block produces, in terms of the coordinate codes
    and the spec-side field numberings. -/
theorem encodeParts_char {disamb dest piece capt chk nag promo : List Char} {sq md : Nat}
    (hng : nagMeta nag = 64 * specNagNum nag ∧ specNagNum nag ≤ 6)
    (h : encodeParts disamb dest piece capt chk nag promo = some (sq, md)) :
    sq = (coordCodes disamb).1 + 16 * (coordCodes disamb).2 +
      256 * (coordCodes dest).1 + 4096 * (coordCodes dest).2 ∧
    md = specPieceNum piece + 8 * specCaptureBit capt + 16 * specCheckNum chk +
      64 * specNagNum nag + 512 * specPromoNum promo := by
  obtain ⟨hA, ha1, ha2⟩ := orCoord_eq 0 disamb 0 4
  obtain ⟨hB, hb1, hb2⟩ :=
    orCoord_eq ((0 ||| ((coordCodes disamb).1 <<< 0)) ||| ((coordCodes disamb).2 <<< 4))
      dest 8 12
  unfold encodeParts at h
  rw [hA] at h
  simp only [Option.bind_eq_bind, Option.some_bind] at h
  rw [hB] at h
  simp only [Option.some_bind] at h
  rcases hp : pieceMeta piece with _ | p
  · rw [hp] at h; simp at h
  rw [hp] at h
  simp only [Option.some_bind] at h
  rcases hcp : captureMeta capt with _ | cp
  · rw [hcp] at h; simp at h
  rw [hcp] at h
  simp only [Option.some_bind] at h
  rcases hck : checkMeta chk with _ | ck
  · rw [hck] at h; simp at h
  rw [hck] at h
  simp only [Option.some_bind] at h
  rcases hpr : promoMeta promo with _ | pr
  · rw [hpr] at h; simp at h
  rw [hpr] at h
  simp only [Option.some_bind, Option.some.injEq, Prod.mk.injEq] at h
  obtain ⟨hsq, hmd⟩ := h
  obtain ⟨hpv, hp1, hp6⟩ := pieceMeta_char hp
  obtain ⟨hcpv, hcp1⟩ := captureMeta_char hcp
  obtain ⟨hckv, hck2⟩ := checkMeta_char hck
  obtain ⟨hprv, hpr6⟩ := promoMeta_char hpr
  constructor
  · rw [← hsq]
    exact (squareWord_eq ha1 ha2 hb1 hb2).symm ▸ squareWord_eq ha1 ha2 hb1 hb2
  · rw [← hmd, hpv, hcpv, hckv, hng.1, hprv]
    exact metaWord_eq (by omega) hcp1 hck2 hng.2 hpr6

/-! ### Bounds of the spec-side numberings -/

theorem specPieceNum_bounds (s : List Char) : 1 ≤ specPieceNum s ∧ specPieceNum s ≤ 6 := by
  unfold specPieceNum
  split_ifs <;> omega

theorem specCaptureBit_le (s : List Char) : specCaptureBit s ≤ 1 := by
  unfold specCaptureBit
  split_ifs <;> omega

theorem specCheckNum_le (s : List Char) : specCheckNum s ≤ 2 := by
  unfold specCheckNum
  split_ifs <;> omega

theorem specNagNum_le (s : List Char) : specNagNum s ≤ 6 := by
  unfold specNagNum
  split_ifs <;> omega

theorem specPromoNum_le (s : List Char) : specPromoNum s ≤ 6 := by
  unfold specPromoNum
  split_ifs <;> omega

/-- The shared encoding block succeeds on every well-shaped set of parts. -/
theorem encodeParts_isSome (disamb dest nag : List Char) {piece capt chk promo : List Char}
    (hpiece : piece = [] ∨ ∃ ch, isPieceChar ch = true ∧ piece = [ch])
    (hcapt : capt = [] ∨ capt = ['x'])
    (hchk : chk = [] ∨ ∃ ch, isCheckChar ch = true ∧ chk = [ch])
    (hpromo : promo = [] ∨ ∃ ch, isPieceChar ch = true ∧ promo = [ch]) :
    ∃ v, encodeParts disamb dest piece capt chk nag promo = some v := by
  obtain ⟨pv, hp⟩ := pieceMeta_of_shape hpiece
  have hcv : ∃ v, captureMeta capt = some v := by
    rcases hcapt with h | h <;> subst h <;> exact ⟨_, rfl⟩
  obtain ⟨cv, hcp⟩ := hcv
  obtain ⟨kv, hk⟩ := checkMeta_of_shape hchk
  obtain ⟨rv, hr⟩ := promoMeta_of_shape hpromo
  unfold encodeParts
  rw [(orCoord_eq 0 disamb 0 4).1]
  simp only [Option.bind_eq_bind, Option.some_bind]
  rw [(orCoord_eq _ dest 8 12).1]
  simp only [Option.some_bind]
  rw [hp]
  simp only [Option.some_bind]
  rw [hcp]
  simp only [Option.some_bind]
  rw [hk]
  simp only [Option.some_bind]
  rw [hr]
  simp only [Option.some_bind]
  exact ⟨_, rfl⟩

/-! ### Claim C1 -/

/-- C1: every movetext token accepted as a standard SAN move is encoded as a
    16-bit square word whose nibbles, low to high, are the disambiguation file
    code, disambiguation rank code, destination file code and destination rank
    code, each in 0 to 8, and a 16-bit metadata word carrying the piece code
    1 to 6 in bits 0 to 2, the capture flag in bit 3, the check state in bits
    4 to 5, the glyph code in bits 6 to 8, and the promotion-piece code in the
    same 1 to 6 numbering, 0 if none, in bits 9 to 12. -/
theorem c1_encoder_bit_layout (t : List Char) (c : StdCaps) (sq md : Nat)
    (hm : reMoveCaptures t = some c) (he : stdMoveEncode c = some (sq, md)) :
    (sq % 16 = (coordCodes c.disamb).1 ∧
     sq / 16 % 16 = (coordCodes c.disamb).2 ∧
     sq / 256 % 16 = (coordCodes c.dest).1 ∧
     sq / 4096 % 16 = (coordCodes c.dest).2 ∧
     sq < 65536 ∧
     (coordCodes c.disamb).1 ≤ 8 ∧ (coordCodes c.disamb).2 ≤ 8 ∧
     (coordCodes c.dest).1 ≤ 8 ∧ (coordCodes c.dest).2 ≤ 8) ∧
    (md % 8 = specPieceNum c.piece ∧
     1 ≤ specPieceNum c.piece ∧ specPieceNum c.piece ≤ 6 ∧
     md / 8 % 2 = specCaptureBit c.capture ∧
     md / 16 % 4 = specCheckNum c.check ∧
     md / 64 % 8 = specNagNum c.nag ∧
     md / 512 % 16 = specPromoNum c.promoPiece ∧
     specPromoNum c.promoPiece ≤ 6 ∧
     (c.promoPiece = [] → specPromoNum c.promoPiece = 0) ∧
     md < 65536) := by
  obtain ⟨hpiece, hdis, hdislen, hcapt, hdest, hmark, hpromo, hchk, hnagall, hnaglen⟩ :=
    reMove_inv hm
  unfold stdMoveEncode at he
  split_ifs at he with g1 g2
  have hng := nagMeta_char (nag_shape hnagall hnaglen)
  obtain ⟨hsq, hmd⟩ := encodeParts_char hng he
  obtain ⟨hda, hdb⟩ : (coordCodes c.disamb).1 ≤ 8 ∧ (coordCodes c.disamb).2 ≤ 8 :=
    ⟨(orCoord_eq 0 c.disamb 0 4).2.1, (orCoord_eq 0 c.disamb 0 4).2.2⟩
  obtain ⟨hea, heb⟩ : (coordCodes c.dest).1 ≤ 8 ∧ (coordCodes c.dest).2 ≤ 8 :=
    ⟨(orCoord_eq 0 c.dest 0 4).2.1, (orCoord_eq 0 c.dest 0 4).2.2⟩
  constructor
  · rw [hsq]
    omega
  · have hp := specPieceNum_bounds c.piece
    have hcb := specCaptureBit_le c.capture
    have hck := specCheckNum_le c.check
    have hngl := specNagNum_le c.nag
    have hprl := specPromoNum_le c.promoPiece
    have hpr0 : c.promoPiece = [] → specPromoNum c.promoPiece = 0 := by
      intro h0
      rw [h0]
      rfl
    rw [hmd]
    refine ⟨by omega, by omega, by omega, by omega, by omega, by omega, by omega, by omega,
      hpr0, by omega⟩

/-- C1 witness at the token exd8=Q+!!. -/
theorem c1_encoder_bit_layout_witness :
    stdMoveEncode ⟨[], ['e'], ['x'], ['d', '8'], ['='], ['Q'], ['+'], ['!', '!']⟩ =
      some (33797, 2777) ∧
    2777 % 8 = specPieceNum [] ∧
    2777 / 512 % 16 = specPromoNum ['Q'] ∧
    2777 / 64 % 8 = specNagNum ['!', '!'] ∧
    33797 % 16 = (coordCodes ['e']).1 := by
  have h := c1_encoder_bit_layout "exd8=Q+!!".data
    ⟨[], ['e'], ['x'], ['d', '8'], ['='], ['Q'], ['+'], ['!', '!']⟩ 33797 2777 rfl rfl
  exact ⟨rfl, h.2.1, h.2.2.2.2.2.2.2.1, h.2.2.2.2.2.2.1, h.1.1⟩

/-! ### Claim C3 -/

/-- C3: the standard-move pattern admits the digit 9 in coordinate components
    while the coordinate codec does not; the token e9 is accepted as a move
    whose destination silently encodes as absent, with no fatal error, against
    the stated intent that an out-of-alphabet coordinate character is fatal
    and a destination never encodes as absent. -/
theorem c3_destination_nine_encodes_absent :
    reMoveCaptures "e9".data = some ⟨[], [], [], ['e', '9'], [], [], [], []⟩ ∧
    reCoordCaptures ['e', '9'] = none ∧
    coordFileCode ['e'] = some 5 ∧
    parseGameText "e9".data = some ⟨[0], [1], [], [], [], [], [], false, false⟩ :=
  ⟨rfl, rfl, rfl, rfl⟩

/-! ### Claim C4 -/

/-- C4 counterexample: the pattern accepts e8= whose promotion marker has no
    promotion piece, and a1b2c3 whose disambiguation is longer than its
    destination; on both, the hard assertions fail and the encoder aborts. -/
theorem c4_assertions_counterexample :
    reMoveCaptures "e8=".data = some ⟨[], [], [], ['e', '8'], ['='], [], [], []⟩ ∧
    stdMoveEncode ⟨[], [], [], ['e', '8'], ['='], [], [], []⟩ = none ∧
    reMoveCaptures "a1b2c3".data =
      some ⟨[], ['a', '1', 'b', '2'], [], ['c', '3'], [], [], [], []⟩ ∧
    stdMoveEncode ⟨[], ['a', '1', 'b', '2'], [], ['c', '3'], [], [], [], []⟩ = none :=
  ⟨rfl, rfl, rfl, rfl⟩

/-- C4 amended: the two invariants are enforced at run time by the hard
    assertions, not implied by the pattern: a token the pattern accepts is
    encoded exactly when its disambiguation is no longer than its destination
    and its promotion piece and promotion marker are both present or both
    absent; otherwise the run aborts. -/
theorem c4_assertions_amended (t : List Char) (c : StdCaps)
    (hm : reMoveCaptures t = some c) :
    (stdMoveEncode c).isSome = true ↔
      (c.disamb.length ≤ c.dest.length ∧ c.promoPiece.length = c.promoMark.length) := by
  obtain ⟨hpiece, _, _, hcapt, _, _, hpromo, hchk, _, _⟩ := reMove_inv hm
  constructor
  · intro h
    unfold stdMoveEncode at h
    split_ifs at h with g1 g2
    · exact ⟨g1, g2⟩
    · exact absurd h (by simp)
    · exact absurd h (by simp)
  · rintro ⟨g1, g2⟩
    unfold stdMoveEncode
    rw [if_pos g1, if_pos g2]
    obtain ⟨v, hv⟩ := encodeParts_isSome c.disamb c.dest c.nag hpiece hcapt hchk hpromo
    simp [hv]

/-- C4 witness at the token e4. -/
theorem c4_assertions_amended_witness :
    (stdMoveEncode ⟨[], [], [], ['e', '4'], [], [], [], []⟩).isSome = true :=
  (c4_assertions_amended "e4".data ⟨[], [], [], ['e', '4'], [], [], [], []⟩ rfl).mpr
    ⟨by decide, rfl⟩

/-! ### Claim C10 -/

/-- C10: on every token accepted by the standard-move or castling pattern, the
    capture substrings fall in exactly the enumerated match arms, so the
    aborting arms of the piece, capture, check, promotion and coordinate
    matches are unreachable and the glyph fallback value 7 is never ORed into
    a metadata word. -/
theorem c10_match_arms_total :
    (∀ t c, reMoveCaptures t = some c →
      (pieceMeta c.piece).isSome = true ∧ (captureMeta c.capture).isSome = true ∧
      (checkMeta c.check).isSome = true ∧ (promoMeta c.promoPiece).isSome = true ∧
      nagMeta c.nag ≠ 7) ∧
    (∀ t cc, reCastlingCaptures t = some cc →
      (checkMeta cc.check).isSome = true ∧ nagMeta cc.nag ≠ 7) ∧
    (∀ s f r, reCoordCaptures s = some (f, r) →
      (coordFileCode f).isSome = true ∧ (coordRankCode r).isSome = true) := by
  refine ⟨?_, ?_, ?_⟩
  · intro t c hm
    obtain ⟨hpiece, _, _, hcapt, _, _, hpromo, hchk, hnagall, hnaglen⟩ := reMove_inv hm
    obtain ⟨pv, hp⟩ := pieceMeta_of_shape hpiece
    have hcv : ∃ v, captureMeta c.capture = some v := by
      rcases hcapt with h | h <;> rw [h] <;> exact ⟨_, rfl⟩
    obtain ⟨cv, hcp⟩ := hcv
    obtain ⟨kv, hk⟩ := checkMeta_of_shape hchk
    obtain ⟨rv, hr⟩ := promoMeta_of_shape hpromo
    have hng := nagMeta_char (nag_shape hnagall hnaglen)
    refine ⟨by simp [hp], by simp [hcp], by simp [hk], by simp [hr], ?_⟩
    have := hng.2
    omega
  · intro t cc hm
    obtain ⟨_, hchk, hnagall, hnaglen, _⟩ := reCastle_inv hm
    obtain ⟨kv, hk⟩ := checkMeta_of_shape hchk
    have hng := nagMeta_char (nag_shape hnagall hnaglen)
    refine ⟨by simp [hk], ?_⟩
    have := hng.2
    omega
  · intro s f r hm
    obtain ⟨hf, hr⟩ := reCoord_inv hm
    obtain ⟨v, hv, _⟩ := coordFileCode_shape hf
    obtain ⟨w, hw, _⟩ := coordRankCode_shape hr
    exact ⟨by simp [hv], by simp [hw]⟩

/-- C10 witness at the tokens Nxe4!? and O-O+. -/
theorem c10_match_arms_total_witness :
    (pieceMeta ['N']).isSome = true ∧ nagMeta ['!', '?'] ≠ 7 ∧
    (checkMeta ['+']).isSome = true := by
  have h1 := c10_match_arms_total.1 "Nxe4!?".data
    ⟨['N'], [], ['x'], ['e', '4'], [], [], [], ['!', '?']⟩ rfl
  have h2 := c10_match_arms_total.2.1 "O-O+".data ⟨"O-O".data, ['+'], []⟩ rfl
  exact ⟨h1.1, h1.2.2.2.2, h2.1⟩

/-! ### Claim C5 -/

/-- A token beginning with the letter O never matches the standard-move
    pattern: O is in none of its character classes. -/
theorem reMove_none_of_O (t : List Char) : reMoveCaptures ('O' :: t) = none := by
  have h1 : isPieceChar 'O' = false := by decide
  have h2 : isBodyChar 'O' = false := by decide
  unfold reMoveCaptures
  cases t with
  | nil => simp [optSplits, repSplits, h1, h2]
  | cons c rest => simp [optSplits, repSplits, h1, h2]

/-- Replacing the comment flag by its current value leaves the state as is. -/
theorem setInComment_self {st : ParseState} {b : Bool} (h : st.inComment = b) :
    { st with inComment := b } = st := by
  cases st
  simp_all

theorem coordCodes_castleDisamb (white : Bool) :
    coordCodes (castleDisamb white) = (5, if white then 1 else 8) := by
  cases white <;> rfl

theorem coordCodes_castleDest (kingside white : Bool) :
    coordCodes (castleDest kingside white) =
      ((if kingside then 7 else 3), if white then 1 else 8) := by
  cases kingside <;> cases white <;> rfl

/-- C5 counterexample: the castling pattern is O-O, an optional dash and an
    optional O, so the token O-O- is accepted although it is neither O-O nor
    O-O-O; it is encoded as a queenside king move. -/
theorem c5_castling_counterexample :
    reCastlingCaptures "O-O-".data = some ⟨"O-O-".data, [], []⟩ ∧
    "O-O-".data ≠ "O-O".data ∧ "O-O-".data ≠ "O-O-O".data ∧
    processToken initState "O-O-".data =
      some ⟨[4885], [6], [], [], [], [], [], false, false⟩ :=
  ⟨rfl, by decide, by decide, rfl⟩

/-- C5 amended: a castling token matches the core O-O followed by an optional
    dash and an optional O (so O-O, O-O-, O-OO and O-O-O all match), possibly
    suffixed by a check or mate marker and up to two glyphs; it is encoded as
    a King move with no capture and no promotion, kingside exactly when the
    core is O-O, from e1 to g1 or c1 when the number of moves parsed so far is
    even and from e8 to g8 or c8 when it is odd, with the check and glyph
    suffixes encoded as for a standard move. -/
theorem c5_castling_amended (st : ParseState) (t : List Char) (cc : CastleCaps)
    (st' : ParseState) (hm : reCastlingCaptures t = some cc)
    (hp : processToken st t = some st') (hic : st.inComment = false) :
    t = cc.core ++ cc.check ++ cc.nag ∧
    (cc.core = "O-O".data ∨ cc.core = "O-O-".data ∨ cc.core = "O-OO".data ∨
      cc.core = "O-O-O".data) ∧
    ∃ sq md, st'.moves = st.moves ++ [sq] ∧ st'.moveMetadata = st.moveMetadata ++ [md] ∧
      sq % 16 = 5 ∧
      sq / 16 % 16 = (if st.moves.length % 2 = 0 then 1 else 8) ∧
      sq / 256 % 16 = (if cc.core = "O-O".data then 7 else 3) ∧
      sq / 4096 % 16 = (if st.moves.length % 2 = 0 then 1 else 8) ∧
      sq < 65536 ∧
      md % 8 = 6 ∧ md / 8 % 2 = 0 ∧ md / 512 % 16 = 0 ∧
      md / 16 % 4 = specCheckNum cc.check ∧
      md / 64 % 8 = specNagNum cc.nag ∧ md < 65536 := by
  obtain ⟨hcore, hchk, hnagall, hnaglen, hconcat⟩ := reCastle_inv hm
  have ht2 : ∃ t2, t = 'O' :: t2 := by
    rcases hcore with h | h | h | h <;> rw [hconcat, h] <;> exact ⟨_, rfl⟩
  obtain ⟨t2, ht2⟩ := ht2
  have hlb : t ≠ lbraceTok := by
    rw [ht2]
    intro hx
    rw [lbraceTok] at hx
    injection hx with h1 _
    exact absurd h1 (by decide)
  have hrb : t ≠ rbraceTok := by
    rw [ht2]
    intro hx
    rw [rbraceTok] at hx
    injection hx with h1 _
    exact absurd h1 (by decide)
  have hic2 : tokenInComment st t = false := by
    simp [tokenInComment, hlb, hrb, hic]
  have hmv : reMoveCaptures t = none := ht2 ▸ reMove_none_of_O t2
  unfold processToken at hp
  rw [hic2] at hp
  simp only [Bool.false_eq_true, if_false] at hp
  rw [setInComment_self hic] at hp
  unfold moveBranch at hp
  rw [hm, hmv] at hp
  simp only [Option.bind_eq_bind] at hp
  rcases hpe : encodeParts (castleDisamb (st.moves.length % 2 == 0))
      (castleDest (cc.core.length == 3) (st.moves.length % 2 == 0))
      ['K'] [] cc.check cc.nag [] with _ | v
  · rw [hpe] at hp
    simp at hp
  rw [hpe] at hp
  simp only [Option.some_bind] at hp
  have hst' : st' = { st with moves := st.moves ++ [v.1]
                              moveMetadata := st.moveMetadata ++ [v.2] } := by
    cases hp
    rfl
  have hng := nagMeta_char (nag_shape hnagall hnaglen)
  obtain ⟨sq, md⟩ := v
  obtain ⟨hsq, hmd⟩ := encodeParts_char hng hpe
  rw [coordCodes_castleDisamb, coordCodes_castleDest] at hsq
  refine ⟨hconcat, hcore, sq, md, by rw [hst'], by rw [hst'], ?_⟩
  have hckle := specCheckNum_le cc.check
  have hngle := specNagNum_le cc.nag
  have hmd6 : md = 6 + 16 * specCheckNum cc.check + 64 * specNagNum cc.nag := by
    rw [hmd]
    rfl
  dsimp only at hsq
  have hck0 : specPieceNum ['K'] = 6 := rfl
  have hcp0 : specCaptureBit ([] : List Char) = 0 := rfl
  have hpr0 : specPromoNum ([] : List Char) = 0 := rfl
  rw [hck0, hcp0, hpr0] at hmd
  by_cases hwp : st.moves.length % 2 = 0
  · have hwb : (st.moves.length % 2 == 0) = true := by simpa using hwp
    rw [hwb] at hsq
    by_cases hkp : cc.core = "O-O".data
    · have hkb : (cc.core.length == 3) = true := by rw [hkp]; rfl
      rw [hkb] at hsq
      norm_num at hsq
      rw [if_pos hwp, if_pos hkp]
      omega
    · have hkb : (cc.core.length == 3) = false := by
        rcases hcore with h | h | h | h
        · exact absurd h hkp
        all_goals rw [h]; rfl
      rw [hkb] at hsq
      norm_num at hsq
      rw [if_pos hwp, if_neg hkp]
      omega
  · have hwb : (st.moves.length % 2 == 0) = false := by simpa using hwp
    rw [hwb] at hsq
    by_cases hkp : cc.core = "O-O".data
    · have hkb : (cc.core.length == 3) = true := by rw [hkp]; rfl
      rw [hkb] at hsq
      norm_num at hsq
      rw [if_neg hwp, if_pos hkp]
      omega
    · have hkb : (cc.core.length == 3) = false := by
        rcases hcore with h | h | h | h
        · exact absurd h hkp
        all_goals rw [h]; rfl
      rw [hkb] at hsq
      norm_num at hsq
      rw [if_neg hwp, if_neg hkp]
      omega

/-- C5 witness at the token O-O-O# after one move. -/
theorem c5_castling_amended_witness :
    processToken ⟨[100], [1], [], [], [], [], [], false, false⟩ "O-O-O#".data =
      some ⟨[100, 33669], [1, 38], [], [], [], [], [], false, false⟩ ∧
    (33669 : Nat) / 256 % 16 = 3 ∧ (33669 : Nat) / 4096 % 16 = 8 ∧
    (38 : Nat) % 8 = 6 ∧ (38 : Nat) / 16 % 4 = specCheckNum ['#'] := by
  have h := c5_castling_amended ⟨[100], [1], [], [], [], [], [], false, false⟩
    "O-O-O#".data ⟨"O-O-O".data, ['#'], []⟩
    ⟨[100, 33669], [1, 38], [], [], [], [], [], false, false⟩ (by decide) (by decide) rfl
  obtain ⟨-, -, sq, md, hmv, hmd, h1, h2, h3, h4, h5, h6, h7, h8, h9, h10, h11⟩ := h
  have hsq : sq = 33669 := by
    have := congrArg (fun l => l.getLast?) hmv
    simpa using this.symm
  have hmd2 : md = 38 := by
    have := congrArg (fun l => l.getLast?) hmd
    simpa using this.symm
  subst hsq hmd2
  refine ⟨by decide, ?_, ?_, h6, ?_⟩
  · simpa using h3
  · simpa using h4
  · exact h9

/-! ### Preservation lemmas for the token loop -/

theorem evalLoop_inv :
    ∀ (ms : List (List Char)) (st st' : ParseState), evalLoop st ms = some st' →
    st'.moves = st.moves ∧ st'.moveMetadata = st.moveMetadata ∧
    st'.clkHours = st.clkHours ∧ st'.clkMinutes = st.clkMinutes ∧
    st'.clkSeconds = st.clkSeconds ∧ st'.inComment = st.inComment ∧
    (st.evalMateIn.length = st.evalAdvantage.length →
      st'.evalMateIn.length = st'.evalAdvantage.length) := by
  intro ms
  induction ms with
  | nil =>
    intro st st' h
    simp only [evalLoop, Option.some.injEq] at h
    subst h
    exact ⟨rfl, rfl, rfl, rfl, rfl, rfl, id⟩
  | cons m rest ih =>
    intro st st' h
    simp only [evalLoop, Option.bind_eq_bind, Option.pure_def] at h
    rcases hsm : searchMate m with _ | ds
    · rw [hsm] at h
      dsimp only at h
      simp only [Option.some_bind] at h
      rcases hsa : searchAdv m with _ | ds2
      · rw [hsa] at h
        dsimp only at h
        have hr := ih _ _ h
        dsimp only at hr
        exact hr
      · rw [hsa] at h
        dsimp only at h
        simp only [Option.some.injEq] at h
        subst h
        refine ⟨rfl, rfl, rfl, rfl, rfl, rfl, ?_⟩
        intro hl
        simp only [List.length_append, List.length_cons, List.length_nil]
        omega
    · rw [hsm] at h
      dsimp only at h
      rcases hpi : parseI16 ds with _ | n
      · rw [hpi] at h
        simp at h
      · rw [hpi] at h
        simp only [Option.some_bind] at h
        rcases hsa : searchAdv m with _ | ds2
        · rw [hsa] at h
          dsimp only at h
          have hr := ih _ _ h
          dsimp only at hr
          refine ⟨hr.1, hr.2.1, hr.2.2.1, hr.2.2.2.1, hr.2.2.2.2.1, hr.2.2.2.2.2.1, ?_⟩
          intro hl
          apply hr.2.2.2.2.2.2
          simp only [List.length_append, List.length_cons, List.length_nil]
          omega
        · rw [hsa] at h
          dsimp only at h
          simp only [Option.some.injEq] at h
          subst h
          refine ⟨rfl, rfl, rfl, rfl, rfl, rfl, ?_⟩
          intro hl
          simp only [List.length_append, List.length_cons, List.length_nil]
          omega

theorem clkLoop_inv :
    ∀ (l : List (List Char × List Char × List Char)) (st st' : ParseState),
    clkLoop st l = some st' →
    st'.moves = st.moves ∧ st'.moveMetadata = st.moveMetadata ∧
    st'.evalMateIn = st.evalMateIn ∧ st'.evalAdvantage = st.evalAdvantage ∧
    st'.evalAvailable = st.evalAvailable ∧ st'.inComment = st.inComment ∧
    (st.clkHours.length = st.clkMinutes.length ∧ st.clkMinutes.length = st.clkSeconds.length →
      st'.clkHours.length = st'.clkMinutes.length ∧
        st'.clkMinutes.length = st'.clkSeconds.length) := by
  intro l
  induction l with
  | nil =>
    intro st st' h
    simp only [clkLoop, Option.some.injEq] at h
    subst h
    exact ⟨rfl, rfl, rfl, rfl, rfl, rfl, id⟩
  | cons x rest ih =>
    intro st st' h
    simp only [clkLoop, Option.bind_eq_bind] at h
    rcases h1 : parseU8 x.1 with _ | a <;> rw [h1] at h
    · simp at h
    simp only [Option.some_bind] at h
    rcases h2 : parseU8 x.2.1 with _ | b <;> rw [h2] at h
    · simp at h
    simp only [Option.some_bind] at h
    rcases h3 : parseU8 x.2.2 with _ | c <;> rw [h3] at h
    · simp at h
    simp only [Option.some_bind] at h
    have hr := ih _ _ h
    dsimp only at hr
    refine ⟨hr.1, hr.2.1, hr.2.2.1, hr.2.2.2.1, hr.2.2.2.2.1, hr.2.2.2.2.2.1, ?_⟩
    intro hl
    apply hr.2.2.2.2.2.2
    simp only [List.length_append, List.length_cons, List.length_nil]
    omega

theorem moveBranch_inv {st : ParseState} {t : List Char} {st' : ParseState}
    (h : moveBranch st t = some st') :
    st'.clkHours = st.clkHours ∧ st'.clkMinutes = st.clkMinutes ∧
    st'.clkSeconds = st.clkSeconds ∧ st'.evalMateIn = st.evalMateIn ∧
    st'.evalAdvantage = st.evalAdvantage ∧ st'.evalAvailable = st.evalAvailable ∧
    st'.inComment = st.inComment ∧
    (st.moves.length = st.moveMetadata.length →
      st'.moves.length = st'.moveMetadata.length) := by
  unfold moveBranch at h
  simp only [Option.bind_eq_bind, Option.pure_def] at h
  rcases hc : reCastlingCaptures t with _ | cc
  · rw [hc] at h
    dsimp only at h
    simp only [Option.some_bind] at h
    rcases hm : reMoveCaptures t with _ | c
    · rw [hm] at h
      dsimp only at h
      simp only [Option.some.injEq] at h
      subst h
      exact ⟨rfl, rfl, rfl, rfl, rfl, rfl, rfl, id⟩
    · rw [hm] at h
      dsimp only at h
      rcases he : stdMoveEncode c with _ | v
      · rw [he] at h
        simp at h
      · rw [he] at h
        simp only [Option.some_bind, Option.some.injEq] at h
        subst h
        refine ⟨rfl, rfl, rfl, rfl, rfl, rfl, rfl, ?_⟩
        intro hl
        simp only [List.length_append, List.length_cons, List.length_nil]
        omega
  · rw [hc] at h
    dsimp only at h
    rcases he1 : encodeParts (castleDisamb (st.moves.length % 2 == 0))
        (castleDest (cc.core.length == 3) (st.moves.length % 2 == 0))
        ['K'] [] cc.check cc.nag [] with _ | v1
    · rw [he1] at h
      simp at h
    rw [he1] at h
    simp only [Option.some_bind] at h
    rcases hm : reMoveCaptures t with _ | c
    · rw [hm] at h
      dsimp only at h
      simp only [Option.some.injEq] at h
      subst h
      refine ⟨rfl, rfl, rfl, rfl, rfl, rfl, rfl, ?_⟩
      intro hl
      simp only [List.length_append, List.length_cons, List.length_nil]
      omega
    · rw [hm] at h
      dsimp only at h
      rcases he : stdMoveEncode c with _ | v
      · rw [he] at h
        simp at h
      · rw [he] at h
        simp only [Option.some_bind, Option.some.injEq] at h
        subst h
        refine ⟨rfl, rfl, rfl, rfl, rfl, rfl, rfl, ?_⟩
        intro hl
        simp only [List.length_append, List.length_cons, List.length_nil]
        omega

/-- The comment flag after one token, written as the claim states it. -/
theorem tokenInComment_eq (st : ParseState) (t : List Char) :
    tokenInComment st t =
      (if t = lbraceTok then true else if t = rbraceTok then false else st.inComment) := by
  unfold tokenInComment
  by_cases h1 : t = lbraceTok
  · subst h1
    have hne : lbraceTok ≠ rbraceTok := by decide
    simp [hne]
  · by_cases h2 : t = rbraceTok
    · subst h2
      have hne : rbraceTok ≠ lbraceTok := by decide
      simp [h1, hne]
    · simp [h1, h2]

theorem processToken_inv {st : ParseState} {t : List Char} {st' : ParseState}
    (h : processToken st t = some st') :
    st'.inComment = tokenInComment st t ∧
    (tokenInComment st t = true →
      st'.moves = st.moves ∧ st'.moveMetadata = st.moveMetadata) ∧
    (tokenInComment st t = false →
      st'.clkHours = st.clkHours ∧ st'.clkMinutes = st.clkMinutes ∧
      st'.clkSeconds = st.clkSeconds ∧ st'.evalMateIn = st.evalMateIn ∧
      st'.evalAdvantage = st.evalAdvantage ∧ st'.evalAvailable = st.evalAvailable) ∧
    (lockstep st → lockstep st') := by
  unfold processToken at h
  rcases hic : tokenInComment st t with _ | _ <;> rw [hic] at h <;>
    simp only [Bool.false_eq_true, if_false, if_true] at h
  · have hmb := moveBranch_inv h
    simp only at hmb
    refine ⟨by rw [hmb.2.2.2.2.2.2.1], by intro hx; exact absurd hx (by simp), ?_, ?_⟩
    · intro _
      exact ⟨hmb.1, hmb.2.1, hmb.2.2.1, hmb.2.2.2.1, hmb.2.2.2.2.1, hmb.2.2.2.2.2.1⟩
    · intro hl
      obtain ⟨l1, l2, l3, l4⟩ := hl
      refine ⟨hmb.2.2.2.2.2.2.2 l1, ?_, ?_, ?_⟩
      · rw [hmb.1, hmb.2.1]; exact l2
      · rw [hmb.2.1, hmb.2.2.1]; exact l3
      · rw [hmb.2.2.2.1, hmb.2.2.2.2.1]; exact l4
  · unfold commentBranch at h
    simp only [Option.bind_eq_bind] at h
    rcases he : evalLoop { st with inComment := true } (evalMatches t) with _ | st2 <;>
      rw [he] at h
    · simp at h
    simp only [Option.some_bind] at h
    have hev := evalLoop_inv _ _ _ he
    have hck := clkLoop_inv _ _ _ h
    simp only at hev hck
    refine ⟨by rw [hck.2.2.2.2.2.1, hev.2.2.2.2.2.1], ?_,
      by intro hx; exact absurd hx (by simp), ?_⟩
    · intro _
      constructor
      · rw [hck.1, hev.1]
      · rw [hck.2.1, hev.2.1]
    · intro hl
      obtain ⟨l1, l2, l3, l4⟩ := hl
      have hst2tri : st2.clkHours.length = st2.clkMinutes.length ∧
          st2.clkMinutes.length = st2.clkSeconds.length := by
        rw [hev.2.2.1, hev.2.2.2.1, hev.2.2.2.2.1]
        exact ⟨l2, l3⟩
      refine ⟨?_, (hck.2.2.2.2.2.2 hst2tri).1, (hck.2.2.2.2.2.2 hst2tri).2, ?_⟩
      · rw [hck.1, hev.1, hck.2.1, hev.2.1]
        exact l1
      · rw [hck.2.2.1, hck.2.2.2.1]
        exact hev.2.2.2.2.2.2 l4

/-! ### Claim C7 -/

/-- C7: the per-game comment flag is set only by the token that is exactly an
    opening brace and cleared only by the token that is exactly a closing
    brace, a token merely containing a brace leaves it unchanged; clock and
    eval extraction changes state only on tokens processed while the flag is
    true, and move parsing changes state only while it is false. -/
theorem c7_comment_toggling (st : ParseState) (t : List Char) (st' : ParseState)
    (h : processToken st t = some st') :
    st'.inComment =
      (if t = lbraceTok then true else if t = rbraceTok then false else st.inComment) ∧
    (st'.inComment = true → st'.moves = st.moves ∧ st'.moveMetadata = st.moveMetadata) ∧
    (st'.inComment = false →
      st'.clkHours = st.clkHours ∧ st'.clkMinutes = st.clkMinutes ∧
      st'.clkSeconds = st.clkSeconds ∧ st'.evalMateIn = st.evalMateIn ∧
      st'.evalAdvantage = st.evalAdvantage ∧ st'.evalAvailable = st.evalAvailable) := by
  obtain ⟨h1, h2, h3, _⟩ := processToken_inv h
  rw [tokenInComment_eq] at h1
  refine ⟨h1, ?_, ?_⟩
  · intro hx
    exact h2 (by rw [tokenInComment_eq, ← h1]; exact hx)
  · intro hx
    exact h3 (by rw [tokenInComment_eq, ← h1]; exact hx)

/-- C7 witness: a token containing a brace without being one, inside a
    comment span, leaves the flag and the move vectors unchanged. -/
theorem c7_comment_toggling_witness :
    (⟨[], [], [], [], [], [], [], false, true⟩ : ParseState).inComment =
      (if "a\x7bb".data = lbraceTok then true
       else if "a\x7bb".data = rbraceTok then false
       else (⟨[], [], [], [], [], [], [], false, true⟩ : ParseState).inComment) ∧
    ([] : List Nat) = [] := by
  have h := c7_comment_toggling ⟨[], [], [], [], [], [], [], false, true⟩ "a\x7bb".data
    ⟨[], [], [], [], [], [], [], false, true⟩ (by decide)
  exact ⟨h.1, (h.2.1 rfl).1⟩

/-! ### Claim C9 -/

theorem foldl_processToken_lockstep :
    ∀ (ts : List (List Char)) (s0 s1 : ParseState),
    ts.foldlM processToken s0 = some s1 → lockstep s0 → lockstep s1 := by
  intro ts
  induction ts with
  | nil =>
    intro s0 s1 h hl
    simp only [List.foldlM_nil, Option.pure_def, Option.some.injEq] at h
    subst h
    exact hl
  | cons t rest ih =>
    intro s0 s1 h hl
    simp only [List.foldlM_cons, Option.bind_eq_bind] at h
    rcases hp : processToken s0 t with _ | s2
    · rw [hp] at h
      simp at h
    · rw [hp] at h
      simp only [Option.some_bind] at h
      exact ih _ _ h ((processToken_inv hp).2.2.2 hl)

/-- C9: whenever parse_game_text completes on a movetext line, the output
    vectors are in lockstep pairs: moves with move metadata, the three clock
    component vectors with one another, and mate-in with advantage. -/
theorem c9_vectors_lockstep (line : List Char) (st : ParseState)
    (h : parseGameText line = some st) : lockstep st := by
  unfold parseGameText at h
  exact foldl_processToken_lockstep _ _ _ h ⟨rfl, rfl, rfl, rfl⟩

/-- C9 witness on a movetext line with a move, a clock and an eval sample. -/
theorem c9_vectors_lockstep_witness :
    lockstep ⟨[17664], [1], [0], [1], [30], [0], [decimalVal "0.25".data], true, false⟩ :=
  c9_vectors_lockstep "e4 \x7b 0.25 0:01:30 \x7d".data
    ⟨[17664], [1], [0], [1], [30], [0], [decimalVal "0.25".data], true, false⟩ rfl

/-! ### Claim C8 -/

/-- C8: the header interpreter maps Result values exactly from its closed
    four-string set and Termination values exactly from its closed
    five-string set, aborting on any other value for these tags, while a
    header field with an unrecognized name is ignored and leaves the game
    metadata unchanged. -/
theorem c8_header_closed_enums :
    (∀ (v : List Char) (g : GameArgs),
      (applyHeaderField g "Result".data v).isSome = true ↔
        (v = "1-0".data ∨ v = "0-1".data ∨ v = "1/2-1/2".data ∨ v = "*".data)) ∧
    (∀ (v : List Char) (g : GameArgs),
      (applyHeaderField g "Termination".data v).isSome = true ↔
        (v = "Normal".data ∨ v = "Time forfeit".data ∨ v = "Abandoned".data ∨
          v = "Rules infraction".data ∨ v = "Unterminated".data)) ∧
    (∀ (f v : List Char) (g : GameArgs),
      f ∉ ["UTCDate".data, "TimeControl".data, "WhiteElo".data, "BlackElo".data,
        "WhiteRatingDiff".data, "BlackRatingDiff".data, "ECO".data, "Result".data,
        "Termination".data, "Site".data, "White".data, "Black".data] →
      applyHeaderField g f v = some g) := by
  refine ⟨?_, ?_, ?_⟩
  · intro v g
    unfold applyHeaderField
    rw [if_neg (show ¬ "Result".data = "UTCDate".data by decide)]
    rw [if_neg (show ¬ "Result".data = "TimeControl".data by decide)]
    rw [if_neg (show ¬ "Result".data = "WhiteElo".data by decide)]
    rw [if_neg (show ¬ "Result".data = "BlackElo".data by decide)]
    rw [if_neg (show ¬ "Result".data = "WhiteRatingDiff".data by decide)]
    rw [if_neg (show ¬ "Result".data = "BlackRatingDiff".data by decide)]
    rw [if_neg (show ¬ "Result".data = "ECO".data by decide)]
    rw [if_pos (show "Result".data = "Result".data from rfl)]
    constructor
    · intro h
      split_ifs at h with w1 w2 w3 w4
      · exact Or.inl w1
      · exact Or.inr (Or.inl w2)
      · exact Or.inr (Or.inr (Or.inl w3))
      · exact Or.inr (Or.inr (Or.inr w4))
      · exact absurd h (by simp)
    · rintro (h | h | h | h) <;> subst h <;> rfl
  · intro v g
    unfold applyHeaderField
    rw [if_neg (show ¬ "Termination".data = "UTCDate".data by decide)]
    rw [if_neg (show ¬ "Termination".data = "TimeControl".data by decide)]
    rw [if_neg (show ¬ "Termination".data = "WhiteElo".data by decide)]
    rw [if_neg (show ¬ "Termination".data = "BlackElo".data by decide)]
    rw [if_neg (show ¬ "Termination".data = "WhiteRatingDiff".data by decide)]
    rw [if_neg (show ¬ "Termination".data = "BlackRatingDiff".data by decide)]
    rw [if_neg (show ¬ "Termination".data = "ECO".data by decide)]
    rw [if_neg (show ¬ "Termination".data = "Result".data by decide)]
    rw [if_pos (show "Termination".data = "Termination".data from rfl)]
    constructor
    · intro h
      split_ifs at h with w1 w2 w3 w4 w5
      · exact Or.inl w1
      · exact Or.inr (Or.inl w2)
      · exact Or.inr (Or.inr (Or.inl w3))
      · exact Or.inr (Or.inr (Or.inr (Or.inl w4)))
      · exact Or.inr (Or.inr (Or.inr (Or.inr w5)))
      · exact absurd h (by simp)
    · rintro (h | h | h | h | h) <;> subst h <;> rfl
  · intro f v g hmem
    simp only [List.mem_cons, List.not_mem_nil, or_false, not_or] at hmem
    obtain ⟨n1, n2, n3, n4, n5, n6, n7, n8, n9, n10, n11, n12⟩ := hmem
    unfold applyHeaderField
    rw [if_neg n1, if_neg n2, if_neg n3, if_neg n4, if_neg n5, if_neg n6, if_neg n7,
      if_neg n8, if_neg n9, if_neg n10, if_neg n11, if_neg n12]

/-- C8 witness: one recognized Result value and one unrecognized field name. -/
theorem c8_header_closed_enums_witness :
    (applyHeaderField defaultGameArgs "Result".data "1-0".data).isSome = true ∧
    applyHeaderField defaultGameArgs "Foo".data "x".data = some defaultGameArgs := by
  constructor
  · exact (c8_header_closed_enums.1 "1-0".data defaultGameArgs).mpr (Or.inl rfl)
  · exact c8_header_closed_enums.2.2 "Foo".data "x".data defaultGameArgs (by decide)

/-! ### Claim C2 -/

/-- C2 counterexample: when the input ends immediately after the movetext
    line, with the trailing blank line never read, convert_next_game returns
    the clean no-more-games result and silently discards the parsed game,
    rather than failing with a fatal framing error as claimed. -/
theorem c2_framing_counterexample :
    convertNextGame [[], "e4 e5".data] = some ConvOutcome.done := rfl

/-- C2 amended: after the movetext line is consumed, a non-blank next line is
    a fatal framing error; but end-of-input before the trailing blank line
    yields the clean no-more-games result, with the in-flight game discarded,
    not a fatal error. -/
theorem c2_framing_amended :
    (∀ (mt l : List Char) (rest : List (List Char)) (st : ParseState),
      parseGameText (rustTrim mt) = some st → rustTrim l ≠ [] →
      convertNextGame ([] :: mt :: l :: rest) = none) ∧
    (∀ (mt : List Char) (st : ParseState),
      parseGameText (rustTrim mt) = some st →
      convertNextGame [[], mt] = some ConvOutcome.done) := by
  constructor
  · intro mt l rest st hpt hl
    unfold convertNextGame
    have hh : headerLoop defaultGameArgs ([] :: mt :: l :: rest) =
        some (some (defaultGameArgs, mt :: l :: rest)) := rfl
    rw [hh]
    simp only [Option.bind_eq_bind, Option.some_bind]
    rw [hpt]
    simp only [Option.some_bind]
    rw [if_neg hl]
  · intro mt st hpt
    unfold convertNextGame
    have hh : headerLoop defaultGameArgs [[], mt] =
        some (some (defaultGameArgs, [mt])) := rfl
    rw [hh]
    simp only [Option.bind_eq_bind, Option.some_bind]
    rw [hpt]
    simp only [Option.some_bind]
    rfl

/-- C2 witness: a non-blank line after the movetext aborts; end-of-input
    there ends cleanly. -/
theorem c2_framing_amended_witness :
    convertNextGame ([] :: "e4".data :: "x".data :: []) = none ∧
    convertNextGame [[], "e4".data] = some ConvOutcome.done := by
  constructor
  · exact c2_framing_amended.1 "e4".data "x".data []
      ⟨[17664], [1], [], [], [], [], [], false, false⟩ rfl (by decide)
  · exact c2_framing_amended.2 "e4".data
      ⟨[17664], [1], [], [], [], [], [], false, false⟩ rfl

/-! ### Claim C6: support lemmas for the eval scanners -/

theorem all_take {p : Char → Bool} :
    ∀ {l : List Char}, l.all p = true → ∀ (n : Nat), (l.take n).all p = true := by
  intro l
  induction l with
  | nil => intro _ n; simp
  | cons c t ih =>
    intro h n
    cases n with
    | zero => simp
    | succ n =>
      simp only [List.all_cons, Bool.and_eq_true] at h
      simp only [List.take_succ_cons, List.all_cons, Bool.and_eq_true]
      exact ⟨h.1, ih h.2 n⟩

theorem takeWhile_all_eq {p : Char → Bool} :
    ∀ {l : List Char}, l.all p = true → l.takeWhile p = l := by
  intro l
  induction l with
  | nil => intro _; rfl
  | cons c t ih =>
    intro h
    simp only [List.all_cons, Bool.and_eq_true] at h
    simp only [List.takeWhile_cons, h.1, if_true]
    rw [ih h.2]

theorem dropWhile_all_eq {p : Char → Bool} :
    ∀ {l : List Char}, l.all p = true → l.dropWhile p = [] := by
  intro l
  induction l with
  | nil => intro _; rfl
  | cons c t ih =>
    intro h
    simp only [List.all_cons, Bool.and_eq_true] at h
    simp only [List.dropWhile_cons, h.1, if_true]
    exact ih h.2

theorem takeWhile_append_stop {p : Char → Bool} {c : Char} {r : List Char}
    (hc : p c = false) :
    ∀ {l : List Char}, l.all p = true → (l ++ c :: r).takeWhile p = l := by
  intro l
  induction l with
  | nil => intro _; simp [List.takeWhile_cons, hc]
  | cons d t ih =>
    intro h
    simp only [List.all_cons, Bool.and_eq_true] at h
    simp only [List.cons_append, List.takeWhile_cons, h.1, if_true]
    rw [ih h.2]

theorem dropWhile_append_stop {p : Char → Bool} {c : Char} {r : List Char}
    (hc : p c = false) :
    ∀ {l : List Char}, l.all p = true → (l ++ c :: r).dropWhile p = c :: r := by
  intro l
  induction l with
  | nil => intro _; simp [List.dropWhile_cons, hc]
  | cons d t ih =>
    intro h
    simp only [List.all_cons, Bool.and_eq_true] at h
    simp only [List.cons_append, List.dropWhile_cons, h.1, if_true]
    exact ih h.2

/-- A digit character is none of the scanner delimiters. -/
theorem digit_char_ne {c : Char} (h : isDigitChar c = true) :
    c ≠ '.' ∧ c ≠ '-' ∧ c ≠ '+' ∧ c ≠ '#' := by
  simp only [isDigitChar, Bool.or_eq_true, decide_eq_true_eq, or_assoc] at h
  rcases h with h|h|h|h|h|h|h|h|h|h <;> subst h <;> exact ⟨by decide, by decide, by decide,
    by decide⟩

theorem matchAdvAt_of_ne {c : Char} {t : List Char} (h : c ≠ '-') :
    matchAdvAt (c :: t) = matchNumDotAt (c :: t) := by
  unfold matchAdvAt
  split
  · rename_i t2 heq
    rw [List.cons.injEq] at heq
    exact absurd heq.1 h
  · rfl

theorem matchSignedDigits_of_ne {c : Char} {t : List Char} (h : c ≠ '-') :
    matchSignedDigits (c :: t) =
      (if (c :: t).takeWhile isDigitChar = [] then none
       else some ((c :: t).takeWhile isDigitChar, (c :: t).dropWhile isDigitChar)) := by
  unfold matchSignedDigits
  split
  · rename_i t2 heq
    rw [List.cons.injEq] at heq
    exact absurd heq.1 h
  · rfl

theorem matchMateAt_of_ne {c : Char} {t : List Char} (h : c ≠ '#') :
    matchMateAt (c :: t) = none := by
  unfold matchMateAt
  split
  · rename_i t2 heq
    rw [List.cons.injEq] at heq
    exact absurd heq.1 h
  · rfl

theorem searchMate_of_ne {c : Char} {t : List Char} (h : c ≠ '#') :
    searchMate (c :: t) = searchMate t := by
  unfold searchMate
  split
  · rename_i heq
    simp at heq
  · rename_i t2 heq
    rw [List.cons.injEq] at heq
    exact absurd heq.1 h
  · rename_i c2 t2 hne heq
    rw [List.cons.injEq] at heq
    rw [heq.2, ← searchMate.eq_def]

theorem parseI16_of_ne {c : Char} {t : List Char} (h1 : c ≠ '-') (h2 : c ≠ '+') :
    parseI16 (c :: t) =
      (if c :: t ≠ [] ∧ (c :: t).all isDigitChar = true ∧ digitsToNat (c :: t) ≤ 32767 then
        some ((digitsToNat (c :: t) : Int))
      else none) := by
  unfold parseI16
  split
  · rename_i t2 heq
    rw [List.cons.injEq] at heq
    exact absurd heq.1 h1
  · rename_i t2 heq
    rw [List.cons.injEq] at heq
    exact absurd heq.1 h2
  · rename_i t2 hne1 hne2
    simp only [ne_eq, List.all_eq_true, decide_eq_true_eq]

theorem signedIntVal_of_ne {c : Char} {t : List Char} (h : c ≠ '-') :
    signedIntVal (c :: t) = (digitsToNat (c :: t) : Int) := by
  unfold signedIntVal
  split
  · rename_i t2 heq
    rw [List.cons.injEq] at heq
    exact absurd heq.1 h
  · rfl

theorem specEvalSamples_of_ne {c : Char} {t : List Char} {rest : List (List Char)}
    (h : c ≠ '#') :
    specEvalSamples ((c :: t) :: rest) = [(0, decimalVal (c :: t))] := by
  unfold specEvalSamples
  split
  · rename_i ds heq
    rw [List.cons.injEq] at heq
    exact absurd heq.1 h
  · rfl

theorem matchNumDotAt_dash (t : List Char) : matchNumDotAt ('-' :: t) = none := by
  unfold matchNumDotAt
  dsimp only [digitSpan]
  simp [List.takeWhile_cons, show isDigitChar '-' = false from by decide]

theorem matchNumDotAt_shape {s : List Char} {mr : List Char × List Char}
    (h : matchNumDotAt s = some mr) :
    ∃ digs frac, digs ≠ [] ∧ digs.all isDigitChar = true ∧ frac ≠ [] ∧
      frac.length ≤ 2 ∧ frac.all isDigitChar = true ∧ mr.1 = digs ++ '.' :: frac := by
  unfold matchNumDotAt at h
  dsimp only [digitSpan] at h
  split_ifs at h with h1
  split at h
  · rename_i r2 heq
    split_ifs at h with h2
    simp only [Option.some.injEq] at h
    refine ⟨s.takeWhile isDigitChar, (r2.takeWhile isDigitChar).take 2, h1,
      List.all_takeWhile, h2, ?_, ?_, ?_⟩
    · simp only [List.length_take]
      omega
    · exact all_take List.all_takeWhile 2
    · rw [← h]
  · exact absurd h (by simp)

theorem matchSignedDigits_shape {s : List Char} {dr : List Char × List Char}
    (h : matchSignedDigits s = some dr) : signedDigitsStr dr.1 := by
  cases s with
  | nil =>
    unfold matchSignedDigits at h
    dsimp only [digitSpan] at h
    simp at h
  | cons c t =>
    by_cases hc : c = '-'
    · subst hc
      simp only [matchSignedDigits, digitSpan] at h
      split_ifs at h with h1
      simp only [Option.some.injEq] at h
      subst h
      exact ⟨['-'], t.takeWhile isDigitChar, Or.inr rfl, h1, List.all_takeWhile, rfl⟩
    · rw [matchSignedDigits_of_ne hc] at h
      split_ifs at h with h1
      simp only [Option.some.injEq] at h
      subst h
      exact ⟨[], (c :: t).takeWhile isDigitChar, Or.inl rfl, h1, List.all_takeWhile, rfl⟩

theorem matchAdvAt_shape {s : List Char} {mr : List Char × List Char}
    (h : matchAdvAt s = some mr) : advStr mr.1 := by
  cases s with
  | nil =>
    unfold matchAdvAt matchNumDotAt at h
    dsimp only [digitSpan] at h
    simp at h
  | cons c t =>
    by_cases hc : c = '-'
    · subst hc
      simp only [matchAdvAt] at h
      rcases hmn : matchNumDotAt t with _ | mr2 <;> rw [hmn] at h <;> dsimp only at h
      · rw [matchNumDotAt_dash] at h
        simp at h
      · simp only [Option.some.injEq] at h
        subst h
        obtain ⟨digs, frac, g1, g2, g3, g4, g5, g6⟩ := matchNumDotAt_shape hmn
        exact ⟨['-'], digs, frac, Or.inr rfl, g1, g2, g3, g4, g5, by simp [g6]⟩
    · rw [matchAdvAt_of_ne hc] at h
      obtain ⟨digs, frac, g1, g2, g3, g4, g5, g6⟩ := matchNumDotAt_shape h
      exact ⟨[], digs, frac, Or.inl rfl, g1, g2, g3, g4, g5, by simp [g6]⟩

theorem matchMateAt_shape {s : List Char} {mr : List Char × List Char}
    (h : matchMateAt s = some mr) :
    ∃ ds, mr.1 = '#' :: ds ∧ signedDigitsStr ds := by
  cases s with
  | nil => exact absurd h (by simp [matchMateAt])
  | cons c t =>
    by_cases hc : c = '#'
    · subst hc
      simp only [matchMateAt] at h
      rcases hms : matchSignedDigits t with _ | dr <;> rw [hms] at h <;>
        dsimp only [Option.map] at h
      · exact absurd h (by simp)
      · simp only [Option.some.injEq] at h
        subst h
        exact ⟨dr.1, rfl, matchSignedDigits_shape hms⟩
    · rw [matchMateAt_of_ne hc] at h
      simp at h

theorem matchEvalAt_shape {s : List Char} {mr : List Char × List Char}
    (h : matchEvalAt s = some mr) :
    advStr mr.1 ∨ ∃ ds, mr.1 = '#' :: ds ∧ signedDigitsStr ds := by
  unfold matchEvalAt at h
  rcases hma : matchAdvAt s with _ | mr2 <;> rw [hma] at h <;> dsimp only at h
  · exact Or.inr (matchMateAt_shape h)
  · simp only [Option.some.injEq] at h
    subst h
    exact Or.inl (matchAdvAt_shape hma)

theorem findEvalAux_shape :
    ∀ (fuel : Nat) (s : List Char) (m : List Char), m ∈ findEvalAux fuel s →
    advStr m ∨ ∃ ds, m = '#' :: ds ∧ signedDigitsStr ds := by
  intro fuel
  induction fuel with
  | zero => intro s m hm; simp [findEvalAux] at hm
  | succ fuel ih =>
    intro s m hm
    cases s with
    | nil => simp [findEvalAux] at hm
    | cons c rest =>
      simp only [findEvalAux] at hm
      rcases hme : matchEvalAt (c :: rest) with _ | mr <;> rw [hme] at hm
      · exact ih _ _ hm
      · simp only [List.mem_cons] at hm
        rcases hm with hm | hm
        · subst hm
          exact matchEvalAt_shape hme
        · exact ih _ _ hm

theorem matchNumDotAt_full {digs frac : List Char} (h1 : digs ≠ [])
    (h2 : digs.all isDigitChar = true) (h3 : frac ≠ []) (h4 : frac.length ≤ 2)
    (h5 : frac.all isDigitChar = true) :
    matchNumDotAt (digs ++ '.' :: frac) = some (digs ++ '.' :: frac, []) := by
  unfold matchNumDotAt
  dsimp only [digitSpan]
  rw [takeWhile_append_stop (by decide) h2, dropWhile_append_stop (by decide) h2]
  rw [if_neg h1]
  split
  · rename_i r2 heq
    rw [List.cons.injEq] at heq
    obtain ⟨-, hfr⟩ := heq
    subst hfr
    simp only [takeWhile_all_eq h5, List.take_of_length_le h4]
    rw [if_neg h3, List.drop_length]
  · rename_i hcon
    exact (hcon frac rfl).elim

theorem matchSignedDigits_full {ds : List Char} (h : signedDigitsStr ds) :
    matchSignedDigits ds = some (ds, []) := by
  obtain ⟨sign, digs, hs, hne, hall, heq⟩ := h
  rcases hs with hs | hs <;> subst hs <;> subst heq
  · obtain ⟨c, t, rfl⟩ : ∃ c t, ds = c :: t := by
      cases ds with
      | nil => exact absurd rfl hne
      | cons c t => exact ⟨c, t, rfl⟩
    have hd : isDigitChar c = true := by
      simp only [List.all_cons, Bool.and_eq_true] at hall
      exact hall.1
    rw [matchSignedDigits_of_ne (digit_char_ne hd).2.1]
    rw [takeWhile_all_eq hall, dropWhile_all_eq hall]
    rw [if_neg (by simp : ¬(c :: t) = ([] : List Char))]
  · simp only [List.singleton_append, matchSignedDigits, digitSpan]
    rw [takeWhile_all_eq hall, dropWhile_all_eq hall]
    rw [if_neg hne]

theorem matchAdvAt_full {m : List Char} (h : advStr m) : matchAdvAt m = some (m, []) := by
  obtain ⟨sign, digs, frac, hs, h1, h2, h3, h4, h5, heq⟩ := h
  rcases hs with hs | hs <;> subst hs <;> subst heq
  · simp only [List.nil_append]
    obtain ⟨c, t, rfl⟩ : ∃ c t, digs = c :: t := by
      cases digs with
      | nil => exact absurd rfl h1
      | cons c t => exact ⟨c, t, rfl⟩
    have hd : isDigitChar c = true := by
      simp only [List.all_cons, Bool.and_eq_true] at h2
      exact h2.1
    rw [show (c :: t) ++ '.' :: frac = c :: (t ++ '.' :: frac) from rfl]
    rw [matchAdvAt_of_ne (digit_char_ne hd).2.1]
    rw [show c :: (t ++ '.' :: frac) = (c :: t) ++ '.' :: frac from rfl]
    exact matchNumDotAt_full h1 h2 h3 h4 h5
  · simp only [List.singleton_append]
    have hstep : matchAdvAt (('-' :: digs) ++ '.' :: frac) =
        (match matchNumDotAt (digs ++ '.' :: frac) with
         | some mr => some ('-' :: mr.1, mr.2)
         | none => matchNumDotAt (('-' :: digs) ++ '.' :: frac)) := rfl
    rw [hstep, matchNumDotAt_full h1 h2 h3 h4 h5]
    rfl

theorem advStr_cons_ne_hash {m : List Char} (h : advStr m) :
    ∃ c t, m = c :: t ∧ c ≠ '#' := by
  obtain ⟨sign, digs, frac, hs, h1, h2, h3, h4, h5, heq⟩ := h
  subst heq
  rcases hs with hs | hs <;> subst hs
  · obtain ⟨c, t, rfl⟩ : ∃ c t, digs = c :: t := by
      cases digs with
      | nil => exact absurd rfl h1
      | cons c t => exact ⟨c, t, rfl⟩
    have hd : isDigitChar c = true := by
      simp only [List.all_cons, Bool.and_eq_true] at h2
      exact h2.1
    exact ⟨c, t ++ '.' :: frac, by simp, (digit_char_ne hd).2.2.2⟩
  · exact ⟨'-', digs ++ '.' :: frac, by simp, by decide⟩

theorem searchAdv_of_advStr {m : List Char} (h : advStr m) : searchAdv m = some m := by
  have hm := matchAdvAt_full h
  obtain ⟨c, t, hct, -⟩ := advStr_cons_ne_hash h
  subst hct
  simp only [searchAdv]
  rw [hm]

theorem searchMate_no_hash {s : List Char} (h : ∀ c ∈ s, c ≠ '#') : searchMate s = none := by
  induction s with
  | nil => rfl
  | cons c t ih =>
    rw [searchMate_of_ne (h c (List.mem_cons_self c t))]
    exact ih fun c2 hc2 => h c2 (List.mem_cons_of_mem _ hc2)

theorem matchNumDotAt_no_dot {s : List Char} (h : ∀ c ∈ s, c ≠ '.') :
    matchNumDotAt s = none := by
  unfold matchNumDotAt
  dsimp only [digitSpan]
  by_cases h1 : s.takeWhile isDigitChar = []
  · rw [if_pos h1]
  · rw [if_neg h1]
    rcases hd : s.dropWhile isDigitChar with _ | ⟨c0, r2⟩
    · rfl
    · have hc0 : c0 ∈ s := (List.dropWhile_sublist isDigitChar).subset
        (by rw [hd]; exact List.mem_cons_self c0 r2)
      split
      · rename_i r3 heq
        rw [List.cons.injEq] at heq
        exact absurd heq.1 (h c0 hc0)
      · rfl

theorem matchAdvAt_no_dot {s : List Char} (h : ∀ c ∈ s, c ≠ '.') : matchAdvAt s = none := by
  cases s with
  | nil => exact matchNumDotAt_no_dot h
  | cons c t =>
    by_cases hc : c = '-'
    · subst hc
      simp only [matchAdvAt]
      rw [matchNumDotAt_no_dot fun c2 hc2 => h c2 (List.mem_cons_of_mem _ hc2)]
      exact matchNumDotAt_no_dot h
    · rw [matchAdvAt_of_ne hc]
      exact matchNumDotAt_no_dot h

theorem searchAdv_no_dot {s : List Char} (h : ∀ c ∈ s, c ≠ '.') : searchAdv s = none := by
  induction s with
  | nil => rfl
  | cons c t ih =>
    simp only [searchAdv]
    rw [matchAdvAt_no_dot h]
    exact ih fun c2 hc2 => h c2 (List.mem_cons_of_mem _ hc2)

theorem searchMate_mate {ds : List Char} (h : signedDigitsStr ds) :
    searchMate ('#' :: ds) = some ds := by
  simp only [searchMate]
  rw [matchSignedDigits_full h]

theorem advStr_chars {m : List Char} (h : advStr m) : ∀ c ∈ m, c ≠ '#' := by
  obtain ⟨sign, digs, frac, hs, h1, h2, h3, h4, h5, heq⟩ := h
  subst heq
  intro c hc
  simp only [List.mem_append, List.mem_cons] at hc
  rcases hc with (hc | hc) | hc | hc
  · rcases hs with hs | hs <;> subst hs <;> simp at hc
    subst hc
    decide
  · exact (digit_char_ne (List.all_eq_true.mp h2 c hc)).2.2.2
  · subst hc
    decide
  · exact (digit_char_ne (List.all_eq_true.mp h5 c hc)).2.2.2

theorem mate_chars {ds : List Char} (h : signedDigitsStr ds) :
    ∀ c ∈ '#' :: ds, c ≠ '.' := by
  obtain ⟨sign, digs, hs, hne, hall, heq⟩ := h
  subst heq
  intro c hc
  simp only [List.mem_cons, List.mem_append] at hc
  rcases hc with hc | hc | hc
  · subst hc
    decide
  · rcases hs with hs | hs <;> subst hs <;> simp at hc
    subst hc
    decide
  · exact (digit_char_ne (List.all_eq_true.mp hall c hc)).1

theorem parseI16_val {ds : List Char} {n : Int} (h : signedDigitsStr ds)
    (hp : parseI16 ds = some n) : n = signedIntVal ds := by
  obtain ⟨sign, digs, hs, hne, hall, heq⟩ := h
  rcases hs with hs | hs <;> subst hs <;> subst heq
  · obtain ⟨c, t, rfl⟩ : ∃ c t, ds = c :: t := by
      cases ds with
      | nil => exact absurd rfl hne
      | cons c t => exact ⟨c, t, rfl⟩
    have hd : isDigitChar c = true := by
      simp only [List.all_cons, Bool.and_eq_true] at hall
      exact hall.1
    rw [parseI16_of_ne (digit_char_ne hd).2.1 (digit_char_ne hd).2.2.1] at hp
    split_ifs at hp with h1
    simp only [Option.some.injEq] at hp
    rw [signedIntVal_of_ne (digit_char_ne hd).2.1]
    exact hp.symm
  · simp only [List.singleton_append] at hp ⊢
    simp only [parseI16] at hp
    split_ifs at hp with h1
    simp only [Option.some.injEq] at hp
    rw [← hp]
    simp only [signedIntVal]

/-- What the eval loop appends, compared with the spec-side description. -/
theorem evalLoop_spec :
    ∀ (ms : List (List Char)) (st st' : ParseState),
    (∀ m ∈ ms, advStr m ∨ ∃ ds, m = '#' :: ds ∧ signedDigitsStr ds) →
    evalLoop st ms = some st' →
    st'.evalMateIn = st.evalMateIn ++ (specEvalSamples ms).map Prod.fst ∧
    st'.evalAdvantage = st.evalAdvantage ++ (specEvalSamples ms).map Prod.snd ∧
    st'.evalAvailable = (st.evalAvailable || !ms.isEmpty) := by
  intro ms
  induction ms with
  | nil =>
    intro st st' _ h
    simp only [evalLoop, Option.some.injEq] at h
    subst h
    simp [specEvalSamples]
  | cons m rest ih =>
    intro st st' hsh h
    simp only [evalLoop, Option.bind_eq_bind, Option.pure_def] at h
    rcases hsh m (List.mem_cons_self m rest) with hadv | ⟨ds, hmds, hds⟩
    · have hsm : searchMate m = none := searchMate_no_hash (advStr_chars hadv)
      have hsa : searchAdv m = some m := searchAdv_of_advStr hadv
      rw [hsm] at h
      dsimp only at h
      simp only [Option.some_bind] at h
      rw [hsa] at h
      dsimp only at h
      simp only [Option.some.injEq] at h
      subst h
      obtain ⟨c, t, hm, hch⟩ := advStr_cons_ne_hash hadv
      subst hm
      rw [specEvalSamples_of_ne hch]
      simp
    · subst hmds
      have hsm : searchMate ('#' :: ds) = some ds := searchMate_mate hds
      have hsa : searchAdv ('#' :: ds) = none := searchAdv_no_dot (mate_chars hds)
      rw [hsm] at h
      dsimp only at h
      rcases hpi : parseI16 ds with _ | n
      · rw [hpi] at h
        simp at h
      rw [hpi] at h
      simp only [Option.some_bind] at h
      rw [hsa] at h
      dsimp only at h
      have hr := ih _ _ (fun m2 hm2 => hsh m2 (List.mem_cons_of_mem _ hm2)) h
      dsimp only at hr
      have hnval : n = signedIntVal ds := parseI16_val hds hpi
      subst hnval
      refine ⟨?_, ?_, ?_⟩
      · rw [hr.1]
        simp [specEvalSamples]
      · rw [hr.2.1]
        simp [specEvalSamples]
      · rw [hr.2.2]
        simp

/-! ### Claim C6 -/

/-- C6: for every token scanned inside a comment span, the eval vectors grow
    exactly by the spec-side samples of its RE_EVAL matches: a mate match
    appends advantage 0 and the parsed signed mate count; an advantage match
    appends mate count 0 and the parsed advantage and ends the scan for that
    token; the availability flag becomes true exactly when a match was seen. -/
theorem c6_eval_extraction (st : ParseState) (t : List Char) (st' : ParseState)
    (h : processToken st t = some st') (hic : tokenInComment st t = true) :
    st'.evalMateIn = st.evalMateIn ++ (specEvalSamples (evalMatches t)).map Prod.fst ∧
    st'.evalAdvantage = st.evalAdvantage ++ (specEvalSamples (evalMatches t)).map Prod.snd ∧
    st'.evalAvailable = (st.evalAvailable || !(evalMatches t).isEmpty) := by
  unfold processToken at h
  rw [hic] at h
  simp only [if_true] at h
  unfold commentBranch at h
  simp only [Option.bind_eq_bind] at h
  rcases he : evalLoop { st with inComment := true } (evalMatches t) with _ | st2
  · rw [he] at h
    simp at h
  rw [he] at h
  simp only [Option.some_bind] at h
  have hspec := evalLoop_spec _ _ _ (fun m hm => findEvalAux_shape _ _ _ hm) he
  dsimp only at hspec
  have hck := clkLoop_inv _ _ _ h
  simp only [evalMatches]
  exact ⟨by rw [hck.2.2.1, hspec.1], by rw [hck.2.2.2.1, hspec.2.1],
    by rw [hck.2.2.2.2.1, hspec.2.2]⟩

/-- C6 witness on the token 0.25] inside a comment span. -/
theorem c6_eval_extraction_witness :
    ([0] : List Int) = [] ++ (specEvalSamples (evalMatches "0.25]".data)).map Prod.fst ∧
    [decimalVal ['0', '.', '2', '5']] =
      [] ++ (specEvalSamples (evalMatches "0.25]".data)).map Prod.snd := by
  have h := c6_eval_extraction ⟨[], [], [], [], [], [], [], false, true⟩ "0.25]".data
    ⟨[], [], [], [], [], [0], [decimalVal ['0', '.', '2', '5']], true, true⟩ rfl rfl
  exact ⟨h.1, h.2.1⟩

end ChessConvert
